import Mathlib

/-!
Verification of the h5.buffers library: a cursor reader (`BufferReader`),
a segmented reader (`BufferQueueReader`) over a queue of byte chunks, and a
deferred-write `BufferBuilder`, shallowly embedded from the JavaScript
source.  Buffers are lists of bytes (`Fin 256`, matching the value range of
a node.js `Buffer` cell).  Fallible operations (the source throws) return
`Option`; an operation that throws before mutating is modelled by `none`
with the caller keeping the unchanged state.
-/

namespace H5

/-- One cell of a node.js Buffer always holds a value in [0, 255]. -/
abbrev Byte := Fin 256

/-- Assignment `buffer[i] = n` coerces the value modulo 256. -/
def natToByte (n : Nat) : Byte := ⟨n % 256, by omega⟩

/-! ## Helpers (lib/helpers.js) -/

/-- One byte expanded LSB-first: `Boolean(byteValue & Math.pow(2, bitIndex))`
for bitIndex = 0..7. -/
def byteBits (b : Byte) : List Bool :=
  (List.range 8).map (fun i => (b.val &&& 2 ^ i) != 0)

/-- `toBits(byteArray, bitCount)`: for each byte push its 8 bits LSB-first,
stopping as soon as `bitCount` bits have been produced. -/
def toBits : List Byte → Nat → List Bool
  | [], _ => []
  | b :: rest, count => (byteBits b).take count ++ toBits rest (count - 8)

/-! ## Cursor reader (lib/BufferReader.js) -/

/-- State of a `BufferReader`: one backing buffer, the index of the next
unread byte, and the number of unread bytes. -/
structure BufferReader where
  buffer : List Byte
  offset : Nat
  length : Nat
deriving DecidableEq

/-- `new BufferReader(buffer)`: length = buffer.length, offset = 0. -/
def mkBufferReader (buffer : List Byte) : BufferReader :=
  ⟨buffer, 0, buffer.length⟩

namespace BufferReader

/-- `skip(count)`: the count is clamped to the remaining length, then the
offset advances and the length shrinks.  (The source first rejects negative
or non-numeric counts, which a `Nat` argument cannot represent.) -/
def skip (s : BufferReader) (count : Nat) : BufferReader :=
  let count := min count s.length
  ⟨s.buffer, s.offset + count, s.length - count⟩

/-- The scan loop of `indexOf`:
`for (var i = this.offset + fromIndex; i < this.length; ++i)` — note that
the upper bound in the source is `this.length`, not
`this.offset + this.length`.  `buffer[i]` for `i` outside the buffer is
`undefined` in JavaScript and never equals a byte value, so an
out-of-range probe just moves on. -/
def scan (buffer : List Byte) (elt : Nat) (off : Nat) (i stop : Nat) : Int :=
  if i < stop then
    match buffer[i]? with
    | some v => if v.val = elt then (i : Int) - (off : Int)
                else scan buffer elt off (i + 1) stop
    | none => scan buffer elt off (i + 1) stop
  else -1
termination_by stop - i
decreasing_by all_goals omega

/-- `indexOf(searchElement, fromIndex)`: validates that the element is a
byte value and the index is at most the reader length, then runs the scan
loop with upper bound `this.length`. -/
def indexOf (s : BufferReader) (searchElement fromIndex : Nat) : Option Int :=
  if 255 < searchElement then none
  else if s.length < fromIndex then none
  else some (scan s.buffer searchElement s.offset (s.offset + fromIndex) s.length)

/-- `shiftByte()`: throws on an empty reader, otherwise returns
`buffer[offset++]` and decrements the length. -/
def shiftByte (s : BufferReader) : Option (Byte × BufferReader) :=
  if s.length = 0 then none
  else (s.buffer[s.offset]?).map
    (fun v => (v, ⟨s.buffer, s.offset + 1, s.length - 1⟩))

/-- The read loop shared by `readBytes`/`shiftBytes`: pushes
`buffer[offset++]` `count` times.  An out-of-range access cannot occur for
validated calls on well-formed readers; it is modelled as failure. -/
def readLoop (buffer : List Byte) (off : Nat) : Nat → Option (List Byte)
  | 0 => some []
  | k + 1 =>
    match buffer[off]? with
    | some v => (readLoop buffer (off + 1) k).map (v :: ·)
    | none => none

/-- `readBytes(offset, count)`: requires `count ≥ 1` and
`offset + count ≤ length`; reads without consuming. -/
def readBytes (s : BufferReader) (offset count : Nat) : Option (List Byte) :=
  if count < 1 then none
  else if s.length < offset + count then none
  else readLoop s.buffer (s.offset + offset) count

/-- `shiftBytes(count)`: requires `1 ≤ count ≤ length`; returns the bytes
and advances the reader. -/
def shiftBytes (s : BufferReader) (count : Nat) : Option (List Byte × BufferReader) :=
  if count < 1 then none
  else if s.length < count then none
  else (readLoop s.buffer s.offset count).map
    (fun l => (l, ⟨s.buffer, s.offset + count, s.length - count⟩))

/-- `readBits(offset, count)` = `toBits(readBytes(offset, ceil(count/8)), count)`;
`Math.ceil(count / 8) = (count + 7) / 8` on naturals. -/
def readBits (s : BufferReader) (offset count : Nat) : Option (List Bool) :=
  (s.readBytes offset ((count + 7) / 8)).map (fun l => toBits l count)

/-- `shiftZeroString(encoding)`: looks for a zero byte with `indexOf(0)`;
returns the empty string without consuming when none is found, otherwise
shifts that many bytes (`shiftString`) and skips the terminator.  Text
decoding is external, so the string is modelled as its byte sequence. -/
def shiftZeroString (s : BufferReader) : Option (List Byte × BufferReader) :=
  match s.indexOf 0 0 with
  | none => none
  | some zi =>
    if zi = -1 then some ([], s)
    else (s.shiftBytes zi.toNat).map (fun r => (r.1, r.2.skip 1))

/-- Node `buffer.readUInt16BE/LE(off)` (host primitive): two bytes wide,
bounds-checked against the buffer. -/
def bufReadUInt16 (buffer : List Byte) (off : Nat) (littleEndian : Bool) : Option Nat :=
  match buffer[off]?, buffer[off + 1]? with
  | some b0, some b1 =>
    some (if littleEndian then b0.val + 256 * b1.val else 256 * b0.val + b1.val)
  | _, _ => none

/-- `readUInt16(offset, littleEndian)`: delegates to the Buffer accessor at
`this.offset + offset`. -/
def readUInt16 (s : BufferReader) (offset : Nat) (littleEndian : Bool) : Option Nat :=
  bufReadUInt16 s.buffer (s.offset + offset) littleEndian

/-- `shiftUInt16(littleEndian)` = `readUInt16(0)` then `skip(2)`. -/
def shiftUInt16 (s : BufferReader) (littleEndian : Bool) : Option (Nat × BufferReader) :=
  (s.readUInt16 0 littleEndian).map (fun v => (v, s.skip 2))

/-- Repeated `shiftByte()` on the cursor reader. -/
def drainFuelR : Nat → BufferReader → List Byte
  | 0, _ => []
  | k + 1, s =>
    match s.shiftByte with
    | none => []
    | some (v, s2) => v :: drainFuelR k s2

/-- Calling `shiftByte()` until `length` is 0 on the cursor reader. -/
def drainR (s : BufferReader) : List Byte := drainFuelR s.length s

end BufferReader

/-! ## Segmented reader (lib/BufferQueueReader.js) -/

/-- State of a `BufferQueueReader`: the queue of chunks, the offset into
the first chunk, and the total number of unread bytes. -/
structure BufferQueueReader where
  buffers : List (List Byte)
  offset : Nat
  length : Nat
deriving DecidableEq

/-- A JavaScript argument to `push`: either a Buffer or something else. -/
inductive JsVal where
  | buffer (c : List Byte)
  | nonBuffer
deriving DecidableEq

namespace BufferQueueReader

/-- The per-argument body of `push`: an empty buffer is skipped, otherwise
it is appended and the length grows. -/
def pushOne (s : BufferQueueReader) (c : List Byte) : BufferQueueReader :=
  if c.length = 0 then s
  else ⟨s.buffers ++ [c], s.offset, s.length + c.length⟩

/-- `push(...)`: validates and appends argument by argument; on the first
non-Buffer argument it throws, keeping everything already appended.  The
returned flag records whether an error was thrown. -/
def push : BufferQueueReader → List JsVal → BufferQueueReader × Bool
  | s, [] => (s, false)
  | s, JsVal.buffer c :: rest => push (pushOne s c) rest
  | s, JsVal.nonBuffer :: _ => (s, true)

/-- `new BufferQueueReader(...chunks)` pushes every argument. -/
def mkQueueReader (chunks : List (List Byte)) : BufferQueueReader :=
  chunks.foldl pushOne ⟨[], 0, 0⟩

/-- The eviction loop shared by `skip` and the first walk of `indexOf`:
`while (buffers.length > 0 && buffers[0].length <= offset)` drop the head
chunk and reduce the offset by its length. -/
def evict : List (List Byte) → Nat → List (List Byte) × Nat
  | [], off => ([], off)
  | c :: rest, off => if c.length ≤ off then evict rest (off - c.length) else (c :: rest, off)

/-- `skip(count)`: clamps the count to the length, advances the offset,
shrinks the length, then evicts fully consumed head chunks. -/
def skip (s : BufferQueueReader) (count : Nat) : BufferQueueReader :=
  let count := min count s.length
  let p := evict s.buffers (s.offset + count)
  ⟨p.1, p.2, s.length - count⟩

/-- `shiftByte()`: throws on an empty reader; otherwise reads
`buffers[0][offset++]`, decrements the length, and evicts the head chunk
once fully consumed. -/
def shiftByte (s : BufferQueueReader) : Option (Byte × BufferQueueReader) :=
  if s.length = 0 then none
  else
    match s.buffers with
    | [] => none
    | b :: rest =>
      (b[s.offset]?).map (fun v =>
        if b.length ≤ s.offset + 1
        then (v, ⟨rest, s.offset + 1 - b.length, s.length - 1⟩)
        else (v, ⟨b :: rest, s.offset + 1, s.length - 1⟩))

/-- The byte-collecting loop of `shiftBytes`: reads `buffers[0][offset++]`,
evicting the head chunk whenever the offset passes its end. -/
def takeLoop : Nat → List (List Byte) → Nat → Option (List Byte × List (List Byte) × Nat)
  | 0, bufs, off => some ([], bufs, off)
  | _ + 1, [], _ => none
  | k + 1, b :: rest, off =>
    match b[off]? with
    | none => none
    | some v =>
      let next := if b.length ≤ off + 1
        then takeLoop k rest (off + 1 - b.length)
        else takeLoop k (b :: rest) (off + 1)
      next.map (fun r => (v :: r.1, r.2))

/-- `shiftBytes(count)`: requires `1 ≤ count ≤ length`, decrements the
length up front and runs the collecting loop. -/
def shiftBytes (s : BufferQueueReader) (count : Nat) : Option (List Byte × BufferQueueReader) :=
  if count < 1 then none
  else if s.length < count then none
  else (takeLoop count s.buffers s.offset).map
    (fun r => (r.1, ⟨r.2.1, r.2.2, s.length - count⟩))

/-- One accumulation step of the private `shiftUInt`/`readUInt` helpers.
Big-endian: `value = ((value << 8) >>> 0) + byte`; little-endian:
`value += ((byte << shift) >>> 0)`.  The `>>> 0` coercions wrap at 2^32,
kept here as `% 2^32` (inert for the byte values and shifts that occur). -/
def uintStep (littleEndian : Bool) (value shift : Nat) (b : Byte) : Nat :=
  if littleEndian then value + (b.val * 2 ^ shift) % 2 ^ 32
  else (value * 256) % 2 ^ 32 + b.val

/-- The consuming loop of the private `shiftUInt(reader, size, littleEndian)`:
reads `buffers[0][offset++]`, folds it into the value, and evicts the head
chunk once the offset passes its end.  The effective shift sequence is
0, 8, 16, ... (the source pre-increments from -8). -/
def uintLoop (littleEndian : Bool) :
    Nat → List (List Byte) → Nat → Nat → Nat → Option (Nat × List (List Byte) × Nat)
  | 0, bufs, off, value, _ => some (value, bufs, off)
  | _ + 1, [], _, _, _ => none
  | k + 1, b :: rest, off, value, shift =>
    match b[off]? with
    | none => none
    | some v =>
      let value1 := uintStep littleEndian value shift v
      if b.length ≤ off + 1
      then uintLoop littleEndian k rest (off + 1 - b.length) value1 (shift + 8)
      else uintLoop littleEndian k (b :: rest) (off + 1) value1 (shift + 8)

/-- `shiftUInt(reader, size, littleEndian)`: throws when fewer than `size`
bytes remain, otherwise consumes `size` bytes into an unsigned value. -/
def shiftUInt (s : BufferQueueReader) (size : Nat) (littleEndian : Bool) :
    Option (Nat × BufferQueueReader) :=
  if s.length < size then none
  else (uintLoop littleEndian size s.buffers s.offset 0 0).map
    (fun r => (r.1, ⟨r.2.1, r.2.2, s.length - size⟩))

/-- `toInt8`: `uInt8 & 0x80 ? (0x100 - uInt8) * -1 : uInt8`. -/
def toInt8 (v : Nat) : Int :=
  if v &&& 0x80 ≠ 0 then ((0x100 : Int) - v) * (-1) else v

/-- `toInt16`: `uInt16 & 0x8000 ? (0x10000 - uInt16) * -1 : uInt16`. -/
def toInt16 (v : Nat) : Int :=
  if v &&& 0x8000 ≠ 0 then ((0x10000 : Int) - v) * (-1) else v

/-- `toInt32`: `uInt32 & 0x80000000 ? (0x100000000 - uInt32) * -1 : uInt32`. -/
def toInt32 (v : Nat) : Int :=
  if v &&& 0x80000000 ≠ 0 then ((0x100000000 : Int) - v) * (-1) else v

/-- `shiftUInt8()` returns `shiftByte()`. -/
def shiftUInt8 (s : BufferQueueReader) : Option (Nat × BufferQueueReader) :=
  (s.shiftByte).map (fun r => (r.1.val, r.2))

/-- `shiftUInt16(littleEndian)` = `shiftUInt(this, 2, littleEndian)`. -/
def shiftUInt16 (s : BufferQueueReader) (littleEndian : Bool) : Option (Nat × BufferQueueReader) :=
  s.shiftUInt 2 littleEndian

/-- `shiftUInt32(littleEndian)` = `shiftUInt(this, 4, littleEndian)`. -/
def shiftUInt32 (s : BufferQueueReader) (littleEndian : Bool) : Option (Nat × BufferQueueReader) :=
  s.shiftUInt 4 littleEndian

/-- `shiftInt8()` = `toInt8(shiftByte())`. -/
def shiftInt8 (s : BufferQueueReader) : Option (Int × BufferQueueReader) :=
  (s.shiftByte).map (fun r => (toInt8 r.1.val, r.2))

/-- `shiftInt16(littleEndian)` = `toInt16(shiftUInt(this, 2, littleEndian))`. -/
def shiftInt16 (s : BufferQueueReader) (littleEndian : Bool) : Option (Int × BufferQueueReader) :=
  (s.shiftUInt 2 littleEndian).map (fun r => (toInt16 r.1, r.2))

/-- `shiftInt32(littleEndian)` = `toInt32(shiftUInt(this, 4, littleEndian))`. -/
def shiftInt32 (s : BufferQueueReader) (littleEndian : Bool) : Option (Int × BufferQueueReader) :=
  (s.shiftUInt 4 littleEndian).map (fun r => (toInt32 r.1, r.2))

/-- The chunk-locating walk shared by `readByte`/`readUInt`:
`while ((buffer = buffers[index++]).length <= offset) offset -= buffer.length` —
running past the last chunk dereferences `undefined` and is modelled as
failure. -/
def locate : List (List Byte) → Nat → Option (List Byte × List (List Byte) × Nat)
  | [], _ => none
  | b :: rest, off =>
    if b.length ≤ off then locate rest (off - b.length) else some (b, rest, off)

/-- `readByte(offset)`: validates `offset < length`, walks to the owning
chunk and returns the byte there without consuming. -/
def readByte (s : BufferQueueReader) (offset : Nat) : Option Byte :=
  if s.length ≤ offset then none
  else
    match locate s.buffers (s.offset + offset) with
    | none => none
    | some (b, _, off) => b[off]?

/-- The non-consuming accumulation loop of the private `readUInt`: walks
bytes with a local (chunk, intra-offset, remaining-chunks) cursor.  After
the final byte the source may step to a non-existent next chunk, which is
harmless because the loop ends. -/
def ruLoop (littleEndian : Bool) :
    Nat → List Byte → Nat → List (List Byte) → Nat → Nat → Option Nat
  | 0, _, _, _, value, _ => some value
  | k + 1, b, off, rest, value, shift =>
    match b[off]? with
    | none => none
    | some v =>
      let value1 := uintStep littleEndian value shift v
      if b.length ≤ off + 1 then
        match rest with
        | [] => if k = 0 then some value1 else none
        | nb :: nrest => ruLoop littleEndian k nb 0 nrest value1 (shift + 8)
      else ruLoop littleEndian k b (off + 1) rest value1 (shift + 8)

/-- `readUInt(reader, offset, size, littleEndian)`: validates
`offset + size ≤ length`, locates the owning chunk and accumulates
`size` bytes without consuming. -/
def readUInt (s : BufferQueueReader) (offset size : Nat) (littleEndian : Bool) : Option Nat :=
  if s.length < offset + size then none
  else
    match locate s.buffers (s.offset + offset) with
    | none => none
    | some (b, rest, off) => ruLoop littleEndian size b off rest 0 0

/-- `readUInt8(offset)` returns `readByte(offset)`. -/
def readUInt8 (s : BufferQueueReader) (offset : Nat) : Option Nat :=
  (s.readByte offset).map Fin.val

/-- `readUInt16(offset, littleEndian)` = `readUInt(this, offset, 2, _)`. -/
def readUInt16 (s : BufferQueueReader) (offset : Nat) (littleEndian : Bool) : Option Nat :=
  s.readUInt offset 2 littleEndian

/-- `readUInt32(offset, littleEndian)` = `readUInt(this, offset, 4, _)`. -/
def readUInt32 (s : BufferQueueReader) (offset : Nat) (littleEndian : Bool) : Option Nat :=
  s.readUInt offset 4 littleEndian

/-- `readInt8(offset)` = `toInt8(readByte(offset))`. -/
def readInt8 (s : BufferQueueReader) (offset : Nat) : Option Int :=
  (s.readByte offset).map (fun b => toInt8 b.val)

/-- `readInt16(offset, littleEndian)` = `toInt16(readUInt(this, offset, 2, _))`. -/
def readInt16 (s : BufferQueueReader) (offset : Nat) (littleEndian : Bool) : Option Int :=
  (s.readUInt offset 2 littleEndian).map toInt16

/-- `readInt32(offset, littleEndian)` = `toInt32(readUInt(this, offset, 4, _))`. -/
def readInt32 (s : BufferQueueReader) (offset : Nat) (littleEndian : Bool) : Option Int :=
  (s.readUInt offset 4 littleEndian).map toInt32

/-- The scan loop of the segmented `indexOf`: probes `buffer[offset]`,
returns the running total on a hit, otherwise advances, moving to the next
chunk when the offset passes the current chunk's end.  An out-of-range
probe reads `undefined`, which never equals a byte value. -/
def scanQ : List (List Byte) → Nat → Nat → Nat → Int
  | [], _, _, _ => -1
  | b :: rest, off, elt, total =>
    match b[off]? with
    | some v =>
      if v.val = elt then total
      else if b.length ≤ off + 1 then scanQ rest 0 elt (total + 1)
      else scanQ (b :: rest) (off + 1) elt (total + 1)
    | none =>
      if b.length ≤ off + 1 then scanQ rest 0 elt (total + 1)
      else scanQ (b :: rest) (off + 1) elt (total + 1)
termination_by bufs off => (bufs.length, (bufs.headD []).length - off)
decreasing_by
  all_goals simp only [List.headD_cons, List.length_cons]
  all_goals first
    | exact Prod.Lex.left _ _ (Nat.lt_succ_self _)
    | exact Prod.Lex.right _ (by omega)

/-- `indexOf(searchElement, fromIndex)` for the segmented reader: after
validation, the first walk (the eviction-shaped loop) finds the starting
chunk and the scan loop searches to the very end of the queue. -/
def indexOf (s : BufferQueueReader) (searchElement fromIndex : Nat) : Option Int :=
  if 255 < searchElement then none
  else if s.length < fromIndex then none
  else
    let p := evict s.buffers (s.offset + fromIndex)
    some (scanQ p.1 p.2 searchElement fromIndex)

/-- `shiftZeroString(encoding)` for the segmented reader: same structure as
the cursor version. -/
def shiftZeroString (s : BufferQueueReader) : Option (List Byte × BufferQueueReader) :=
  match s.indexOf 0 0 with
  | none => none
  | some zi =>
    if zi = -1 then some ([], s)
    else (s.shiftBytes zi.toNat).map (fun r => (r.1, r.2.skip 1))

/-- Accumulation of `uintStep` over a byte list, the pure meaning of the
loops in `shiftUInt`/`readUInt`. -/
def accum (littleEndian : Bool) : Nat → Nat → List Byte → Nat
  | v, _, [] => v
  | v, sh, b :: bs => accum littleEndian (uintStep littleEndian v sh b) (sh + 8) bs

/-- Repeated `shiftByte()` with enough fuel; the reader's own `length`
ticks down by one per successful call, so `length` is exactly the number
of calls until `length === 0`. -/
def drainFuel : Nat → BufferQueueReader → List Byte
  | 0, _ => []
  | k + 1, s =>
    match s.shiftByte with
    | none => []
    | some (v, s2) => v :: drainFuel k s2

/-- Calling `shiftByte()` until `length` is 0, collecting the bytes. -/
def drain (s : BufferQueueReader) : List Byte := drainFuel s.length s

/-- The state-mutating primitive operations of the segmented reader: every
`shift*` method of the source factors through `shiftByte`, `shiftBytes`
(via `shiftBits`/`shiftBuffer`/`shiftString`/`shiftZeroString`, the last
one followed by `skip`), or the private `shiftUInt`
(`shiftInt16/32`, `shiftUInt16/32`); `read*` methods do not mutate. -/
inductive QReach : BufferQueueReader → Prop
  | base : QReach ⟨[], 0, 0⟩
  | pushStep (s : BufferQueueReader) (c : List Byte) :
      QReach s → QReach (pushOne s c)
  | skipStep (s : BufferQueueReader) (count : Nat) :
      QReach s → QReach (s.skip count)
  | shiftByteStep (s : BufferQueueReader) (r : Byte × BufferQueueReader) :
      QReach s → s.shiftByte = some r → QReach r.2
  | shiftBytesStep (s : BufferQueueReader) (count : Nat)
      (r : List Byte × BufferQueueReader) :
      QReach s → s.shiftBytes count = some r → QReach r.2
  | shiftUIntStep (s : BufferQueueReader) (size : Nat) (le : Bool)
      (r : Nat × BufferQueueReader) :
      QReach s → s.shiftUInt size le = some r → QReach r.2

end BufferQueueReader

/-! ## Builder (lib/BufferBuilder.js)

The source stores closures `(buffer, offset) => bytesWritten`; every closure
enqueued by the modelled pushers returns its fixed byte width, recorded here
as an explicit `width` field, and `toBuffer`'s reduce accumulates offsets
with it. -/

/-- One enqueued deferred write. -/
structure WriteOp where
  width : Nat
  run : List Byte → Nat → List Byte

/-- State of a `BufferBuilder`: total pushed byte count and the pending
write operations. -/
structure BufferBuilder where
  length : Nat
  data : List WriteOp

/-- `new BufferBuilder()`. -/
def emptyBuilder : BufferBuilder := ⟨0, []⟩

/-- Sequential byte stores `buffer[offset++] = v`; a store past the end of
a node.js Buffer is silently ignored, like `List.set` out of range. -/
def writeList : List Byte → Nat → List Byte → List Byte
  | buf, _, [] => buf
  | buf, off, v :: vs => writeList (buf.set off v) (off + 1) vs

namespace BufferBuilder

/-- `toBuffer()`'s reduce: replay each closure at the accumulated offset. -/
def interpOps : List WriteOp → List Byte → Nat → List Byte
  | [], buf, _ => buf
  | op :: rest, buf, off => interpOps rest (op.run buf off) (off + op.width)

/-- `toBuffer()` as a method on the state: allocates `new Buffer(this.length)`
(every modelled operation overwrites its whole span, so the fresh contents
are modelled as zero bytes), replays the operation log, and does not assign
to any field of `this`. -/
def toBufferS (b : BufferBuilder) : List Byte × BufferBuilder :=
  (interpOps b.data (List.replicate b.length (natToByte 0)) 0, b)

/-- The returned buffer of `toBuffer()`. -/
def toBuffer (b : BufferBuilder) : List Byte := (toBufferS b).1

/-- Node `buffer.writeUInt16BE/LE(value, offset)` (host primitive) for a
validated 16-bit value: stores `value >>> 8` and `value & 0xFF`. -/
def bufWriteUInt16 (littleEndian : Bool) (v : Nat) (buf : List Byte) (off : Nat) : List Byte :=
  if littleEndian then writeList buf off [natToByte v, natToByte (v / 256)]
  else writeList buf off [natToByte (v / 256), natToByte v]

/-- Node `buffer.writeUInt32BE/LE(value, offset)` for a validated 32-bit
value. -/
def bufWriteUInt32 (littleEndian : Bool) (v : Nat) (buf : List Byte) (off : Nat) : List Byte :=
  if littleEndian then
    writeList buf off [natToByte v, natToByte (v / 2 ^ 8), natToByte (v / 2 ^ 16), natToByte (v / 2 ^ 24)]
  else
    writeList buf off [natToByte (v / 2 ^ 24), natToByte (v / 2 ^ 16), natToByte (v / 2 ^ 8), natToByte v]

/-- `pushByte(byteValue)`: validates the range and enqueues a 1-byte store. -/
def pushByte (b : BufferBuilder) (v : Nat) : Option BufferBuilder :=
  if 255 < v then none
  else some ⟨b.length + 1, b.data ++ [⟨1, fun buf off => buf.set off (natToByte v)⟩]⟩

/-- `pushBytes(bytesArray)`: a no-op on an empty array, otherwise enqueues
one store per element (values are coerced into bytes by the Buffer). -/
def pushBytes (b : BufferBuilder) (arr : List Nat) : BufferBuilder :=
  if arr.length = 0 then b
  else ⟨b.length + arr.length,
        b.data ++ [⟨arr.length, fun buf off => writeList buf off (arr.map natToByte)⟩]⟩

/-- `pushBuffer(sourceBuffer)`: a no-op on an empty buffer, otherwise
enqueues `sourceBuffer.copy(target, offset)`. -/
def pushBuffer (b : BufferBuilder) (c : List Byte) : BufferBuilder :=
  if c.length = 0 then b
  else ⟨b.length + c.length, b.data ++ [⟨c.length, fun buf off => writeList buf off c⟩]⟩

/-- `pushUInt8(numberValue)`. -/
def pushUInt8 (b : BufferBuilder) (v : Nat) : Option BufferBuilder :=
  if 0xFF < v then none
  else some ⟨b.length + 1, b.data ++ [⟨1, fun buf off => buf.set off (natToByte v)⟩]⟩

/-- `pushUInt16(numberValue, littleEndian)`: validates the 16-bit range and
enqueues a 2-byte write. -/
def pushUInt16 (b : BufferBuilder) (v : Nat) (littleEndian : Bool) : Option BufferBuilder :=
  if 0xFFFF < v then none
  else some ⟨b.length + 2, b.data ++ [⟨2, bufWriteUInt16 littleEndian v⟩]⟩

/-- `pushUInt32(numberValue, littleEndian)`. -/
def pushUInt32 (b : BufferBuilder) (v : Nat) (littleEndian : Bool) : Option BufferBuilder :=
  if 0xFFFFFFFF < v then none
  else some ⟨b.length + 4, b.data ++ [⟨4, bufWriteUInt32 littleEndian v⟩]⟩

/-- `pushInt8(numberValue)`: validates [-128, 127]; `writeInt8` stores the
two's-complement byte. -/
def pushInt8 (b : BufferBuilder) (v : Int) : Option BufferBuilder :=
  if v < -0x80 ∨ 0x7F < v then none
  else some ⟨b.length + 1,
             b.data ++ [⟨1, fun buf off => buf.set off (natToByte (v % 2 ^ 8).toNat)⟩]⟩

/-- `pushInt16(numberValue, littleEndian)`: validates [-32768, 32767];
`writeInt16BE/LE` stores the two's-complement bytes. -/
def pushInt16 (b : BufferBuilder) (v : Int) (littleEndian : Bool) : Option BufferBuilder :=
  if v < -0x8000 ∨ 0x7FFF < v then none
  else some ⟨b.length + 2, b.data ++ [⟨2, bufWriteUInt16 littleEndian (v % 2 ^ 16).toNat⟩]⟩

/-- `pushInt32(numberValue, littleEndian)`. -/
def pushInt32 (b : BufferBuilder) (v : Int) (littleEndian : Bool) : Option BufferBuilder :=
  if v < -0x80000000 ∨ 0x7FFFFFFF < v then none
  else some ⟨b.length + 4, b.data ++ [⟨4, bufWriteUInt32 littleEndian (v % 2 ^ 32).toNat⟩]⟩

/-- The closure enqueued by `pushBits`: packs bits LSB-first, flushing a
byte whenever `bitIndex` reaches a multiple of 8, and finally stores the
pending partial byte. -/
def pushBitsGo : List Bool → Nat → Nat → List Byte → Nat → List Byte
  | [], _, bv, buf, off => buf.set off (natToByte bv)
  | bit :: rest, bi, bv, buf, off =>
    if bi ≠ 0 ∧ bi % 8 = 0
    then pushBitsGo rest 1 (if bit then 1 else 0) (buf.set off (natToByte bv)) (off + 1)
    else pushBitsGo rest (bi + 1) (if bit then bv ||| 2 ^ bi else bv) buf off

/-- `pushBits(bitsArray)`: a no-op on the empty array; otherwise enqueues a
`ceil(bitsCount / 8)`-byte deferred write running the packing loop. -/
def pushBits (b : BufferBuilder) (bits : List Bool) : BufferBuilder :=
  if bits.length = 0 then b
  else
    let byteCount := (bits.length + 7) / 8
    ⟨b.length + byteCount, b.data ++ [⟨byteCount, fun buf off => pushBitsGo bits 0 0 buf off⟩]⟩

/-- Reachable builder states: any sequence of the modelled push operations
(the fixed-width integer, byte, buffer and bit pushers; the string and
floating-point pushers delegate to an external text encoder and IEEE
arithmetic and are outside the model). -/
inductive BReach : BufferBuilder → Prop
  | base : BReach emptyBuilder
  | pushByteStep (b : BufferBuilder) (v : Nat) (b2 : BufferBuilder) :
      BReach b → pushByte b v = some b2 → BReach b2
  | pushBytesStep (b : BufferBuilder) (arr : List Nat) :
      BReach b → BReach (pushBytes b arr)
  | pushBufferStep (b : BufferBuilder) (c : List Byte) :
      BReach b → BReach (pushBuffer b c)
  | pushBitsStep (b : BufferBuilder) (bits : List Bool) :
      BReach b → BReach (pushBits b bits)
  | pushUInt8Step (b : BufferBuilder) (v : Nat) (b2 : BufferBuilder) :
      BReach b → pushUInt8 b v = some b2 → BReach b2
  | pushUInt16Step (b : BufferBuilder) (v : Nat) (le : Bool) (b2 : BufferBuilder) :
      BReach b → pushUInt16 b v le = some b2 → BReach b2
  | pushUInt32Step (b : BufferBuilder) (v : Nat) (le : Bool) (b2 : BufferBuilder) :
      BReach b → pushUInt32 b v le = some b2 → BReach b2
  | pushInt8Step (b : BufferBuilder) (v : Int) (b2 : BufferBuilder) :
      BReach b → pushInt8 b v = some b2 → BReach b2
  | pushInt16Step (b : BufferBuilder) (v : Int) (le : Bool) (b2 : BufferBuilder) :
      BReach b → pushInt16 b v le = some b2 → BReach b2
  | pushInt32Step (b : BufferBuilder) (v : Int) (le : Bool) (b2 : BufferBuilder) :
      BReach b → pushInt32 b v le = some b2 → BReach b2

end BufferBuilder

/-- Whether a `push` argument is a Buffer. -/
def isBufferArg : JsVal → Bool
  | JsVal.buffer _ => true
  | JsVal.nonBuffer => false

/-- The chunks among a list of `push` arguments. -/
def argChunks (l : List JsVal) : List (List Byte) :=
  l.filterMap (fun a => match a with
    | JsVal.buffer c => some c
    | JsVal.nonBuffer => none)

/-- LSB-first numeric value of a bit sequence (bit i weighs 2^i). -/
def bitsToByte : List Bool → Nat
  | [] => 0
  | b :: rest => (if b then 1 else 0) + 2 * bitsToByte rest

/-- The bytes computed by the `pushBits` closure: the pure mirror of the
value accumulation in `pushBitsGo`, listing the stored bytes in order. -/
def packLoop : List Bool → Nat → Nat → List Nat
  | [], _, bv => [bv]
  | bit :: rest, bi, bv =>
    if bi ≠ 0 ∧ bi % 8 = 0 then bv :: packLoop rest 1 (if bit then 1 else 0)
    else packLoop rest (bi + 1) (if bit then bv ||| 2 ^ bi else bv)

/-! ## Logical view of reader states -/

/-- The unread bytes of a segmented reader, as one flat sequence. -/
def flatRem (s : BufferQueueReader) : List Byte := s.buffers.flatten.drop s.offset

/-- Well-formedness of a segmented reader state: no stored chunk is empty,
the offset points strictly inside the head chunk (and is 0 when the queue
is empty), and `length` counts the unread bytes. -/
def QWF (s : BufferQueueReader) : Prop :=
  (∀ c ∈ s.buffers, c ≠ []) ∧
  (∀ c rest, s.buffers = c :: rest → s.offset < c.length) ∧
  (s.buffers = [] → s.offset = 0) ∧
  s.length + s.offset = s.buffers.flatten.length

/-- The unread bytes of a cursor reader. -/
def flatRemR (s : BufferReader) : List Byte := s.buffer.drop s.offset

/-- Well-formedness of a cursor reader state: `length` counts the bytes
after the offset. -/
def RWF (s : BufferReader) : Prop := s.length + s.offset = s.buffer.length

namespace BufferQueueReader

theorem evict_spec : ∀ (bufs : List (List Byte)) (off : Nat),
    (∀ c ∈ bufs, c ≠ []) →
    (∀ c ∈ (evict bufs off).1, c ≠ []) ∧
    (∀ c rest, (evict bufs off).1 = c :: rest → (evict bufs off).2 < c.length) ∧
    ((evict bufs off).1 = [] → (evict bufs off).2 = off - bufs.flatten.length) ∧
    (evict bufs off).1.flatten.drop (evict bufs off).2 = bufs.flatten.drop off ∧
    (evict bufs off).2 + bufs.flatten.length = off + (evict bufs off).1.flatten.length := by
  intro bufs
  induction bufs with
  | nil =>
    intro off h
    simp [evict]
  | cons c rest ih =>
    intro off h
    by_cases hc : c.length ≤ off
    · have hrec := ih (off - c.length) (fun x hx => h x (List.mem_cons_of_mem _ hx))
      have hev : evict (c :: rest) off = evict rest (off - c.length) := by
        simp [evict, hc]
      rw [hev]
      refine ⟨hrec.1, hrec.2.1, ?_, ?_, ?_⟩
      · intro hnil
        have := hrec.2.2.1 hnil
        simp only [List.flatten_cons, List.length_append]
        omega
      · rw [hrec.2.2.2.1]
        simp only [List.flatten_cons, List.drop_append_eq_append_drop,
          List.drop_eq_nil_of_le hc]
        simp
      · have := hrec.2.2.2.2
        simp only [List.flatten_cons, List.length_append]
        omega
    · have hev : evict (c :: rest) off = (c :: rest, off) := by
        simp [evict, hc]
      rw [hev]
      refine ⟨h, ?_, ?_, rfl, rfl⟩
      · intro x xs hx
        cases hx
        omega
      · intro hnil
        cases hnil

theorem skip_spec (s : BufferQueueReader) (count : Nat) (h : QWF s) :
    QWF (s.skip count) ∧ flatRem (s.skip count) = (flatRem s).drop count ∧
    (s.skip count).length = s.length - count := by
  obtain ⟨h1, h2, h3, h4⟩ := h
  obtain ⟨e1, e2, e3, e4, e5⟩ := evict_spec s.buffers (s.offset + min count s.length) h1
  have hskip : s.skip count =
      ⟨(evict s.buffers (s.offset + min count s.length)).1,
        (evict s.buffers (s.offset + min count s.length)).2,
        s.length - min count s.length⟩ := rfl
  rw [hskip]
  have hle : s.offset + min count s.length ≤ s.buffers.flatten.length := by omega
  refine ⟨⟨e1, e2, ?_, ?_⟩, ?_, ?_⟩
  · intro hnil
    dsimp only at hnil ⊢
    have := e3 hnil
    omega
  · dsimp only
    omega
  · dsimp only [flatRem]
    rw [e4, List.drop_drop]
    rcases Nat.le_total count s.length with hcase | hcase
    · rw [Nat.min_eq_left hcase]
    · rw [Nat.min_eq_right hcase,
        List.drop_eq_nil_of_le (by omega), List.drop_eq_nil_of_le (by omega)]
  · dsimp only
    omega

theorem shiftByte_spec (s : BufferQueueReader) (h : QWF s) (hl : 0 < s.length) :
    ∃ v s2, s.shiftByte = some (v, s2) ∧ QWF s2 ∧
      flatRem s = v :: flatRem s2 ∧ s2.length = s.length - 1 := by
  obtain ⟨h1, h2, h3, h4⟩ := h
  cases hb : s.buffers with
  | nil =>
    rw [hb] at h4
    simp at h4
    omega
  | cons b rest =>
    have hoff : s.offset < b.length := h2 b rest hb
    have hget : b[s.offset]? = some b[s.offset] := List.getElem?_eq_getElem hoff
    have hflat : s.buffers.flatten = b ++ rest.flatten := by rw [hb]; simp
    have hlen : s.length + s.offset = b.length + rest.flatten.length := by
      rw [hflat] at h4
      simpa [List.length_append] using h4
    have hne : ¬ s.length = 0 := by omega
    have hdropb : b.drop s.offset = b[s.offset] :: b.drop (s.offset + 1) :=
      List.drop_eq_getElem_cons hoff
    have hrem : flatRem s = b[s.offset] :: (b.drop (s.offset + 1) ++ rest.flatten) := by
      simp only [flatRem, hflat, List.drop_append_eq_append_drop,
        Nat.sub_eq_zero_of_le (Nat.le_of_lt hoff), List.drop_zero]
      rw [hdropb]
      rfl
    by_cases hev : b.length ≤ s.offset + 1
    · have hoffz : s.offset + 1 - b.length = 0 := by omega
      have hoffb : s.offset + 1 = b.length := by omega
      refine ⟨b[s.offset], ⟨rest, 0, s.length - 1⟩, ?_, ?_, ?_, rfl⟩
      · simp only [shiftByte, hb, hget, hne, if_false, Option.map_some', hev, if_true, hoffz]
      · refine ⟨fun c hc => h1 c ?_, ?_, fun _ => rfl, ?_⟩
        · dsimp only at hc
          rw [hb]
          exact List.mem_cons_of_mem _ hc
        · intro c cs hcs
          dsimp only at hcs ⊢
          have hc : c ∈ s.buffers := by
            rw [hb, hcs]
            exact List.mem_cons_of_mem _ (List.mem_cons_self c cs)
          have := List.length_pos.mpr (h1 c hc)
          omega
        · dsimp only
          omega
      · rw [hrem]
        dsimp only [flatRem]
        rw [List.drop_zero, List.drop_eq_nil_of_le hev]
        simp
    · refine ⟨b[s.offset], ⟨b :: rest, s.offset + 1, s.length - 1⟩, ?_, ?_, ?_, rfl⟩
      · simp only [shiftByte, hb, hget, hne, if_false, Option.map_some', hev]
      · refine ⟨fun c hc => h1 c ?_, ?_, ?_, ?_⟩
        · dsimp only at hc
          rw [hb]
          exact hc
        · intro c cs hcs
          dsimp only at hcs ⊢
          injection hcs with hc1 hc2
          subst hc1
          omega
        · intro hcon
          dsimp only at hcon
          cases hcon
        · dsimp only
          simp only [List.flatten_cons, List.length_append]
          omega
      · rw [hrem]
        dsimp only [flatRem]
        simp only [List.flatten_cons, List.drop_append_eq_append_drop,
          Nat.sub_eq_zero_of_le (by omega : s.offset + 1 ≤ b.length), List.drop_zero]

theorem drainFuel_eq : ∀ (k : Nat) (s : BufferQueueReader), QWF s → s.length = k →
    drainFuel k s = flatRem s := by
  intro k
  induction k with
  | zero =>
    intro s h hk
    obtain ⟨h1, h2, h3, h4⟩ := h
    have : flatRem s = [] := by
      apply List.eq_nil_of_length_eq_zero
      simp only [flatRem, List.length_drop]
      omega
    simp [drainFuel, this]
  | succ n ih =>
    intro s h hk
    obtain ⟨v, s2, hsb, hwf2, hflat, hlen⟩ := shiftByte_spec s h (by omega)
    simp only [drainFuel, hsb]
    rw [ih s2 hwf2 (by omega), hflat]

theorem pushOne_spec (s : BufferQueueReader) (c : List Byte) (h : QWF s) :
    QWF (pushOne s c) ∧ flatRem (pushOne s c) = flatRem s ++ c ∧
    (pushOne s c).length = s.length + c.length := by
  obtain ⟨h1, h2, h3, h4⟩ := h
  by_cases hc : c.length = 0
  · have hcn : c = [] := List.eq_nil_of_length_eq_zero hc
    subst hcn
    simp only [pushOne, List.length_nil, if_pos rfl, List.append_nil, Nat.add_zero]
    exact ⟨⟨h1, h2, h3, h4⟩, rfl, rfl⟩
  · have hpush : pushOne s c = ⟨s.buffers ++ [c], s.offset, s.length + c.length⟩ := by
      simp [pushOne, hc]
    rw [hpush]
    have hcpos : 0 < c.length := by omega
    refine ⟨⟨?_, ?_, by simp, ?_⟩, ?_, rfl⟩
    · intro x hx
      rcases List.mem_append.mp hx with hx | hx
      · exact h1 x hx
      · simp at hx
        subst hx
        intro hnil
        rw [hnil] at hc
        simp at hc
    · intro x xs hx
      cases hb : s.buffers with
      | nil =>
        rw [hb] at hx
        simp at hx
        rw [h3 hb, ← hx.1]
        omega
      | cons b bs =>
        rw [hb] at hx
        simp at hx
        rw [← hx.1]
        exact h2 b bs hb
    · show s.length + c.length + s.offset = (s.buffers ++ [c]).flatten.length
      simp only [List.flatten_append, List.length_append, List.flatten_cons,
        List.flatten_nil, List.append_nil]
      omega
    · show (s.buffers ++ [c]).flatten.drop s.offset = flatRem s ++ c
      have hole : s.offset ≤ s.buffers.flatten.length := by omega
      simp only [flatRem, List.flatten_append, List.drop_append_eq_append_drop,
        Nat.sub_eq_zero_of_le hole, List.drop_zero, List.flatten_cons,
        List.flatten_nil, List.append_nil]

theorem mkQueueReader_fold (chunks : List (List Byte)) : ∀ (s : BufferQueueReader), QWF s →
    QWF (chunks.foldl pushOne s) ∧
    flatRem (chunks.foldl pushOne s) = flatRem s ++ chunks.flatten ∧
    (chunks.foldl pushOne s).length = s.length + chunks.flatten.length := by
  induction chunks with
  | nil =>
    intro s h
    simp
    exact h
  | cons c rest ih =>
    intro s h
    obtain ⟨hw, hf, hl⟩ := pushOne_spec s c h
    obtain ⟨rw1, rf, rl⟩ := ih (pushOne s c) hw
    refine ⟨rw1, ?_, ?_⟩
    · simp only [List.foldl_cons] at *
      rw [rf, hf]
      simp
    · simp only [List.foldl_cons] at *
      rw [rl, hl]
      simp
      omega

theorem mkQueueReader_spec (chunks : List (List Byte)) :
    QWF (mkQueueReader chunks) ∧ flatRem (mkQueueReader chunks) = chunks.flatten ∧
    (mkQueueReader chunks).length = chunks.flatten.length := by
  have hbase : QWF ⟨[], 0, 0⟩ := by
    refine ⟨by simp, by simp, fun _ => rfl, by simp⟩
  obtain ⟨a, b, c⟩ := mkQueueReader_fold chunks ⟨[], 0, 0⟩ hbase
  refine ⟨a, ?_, ?_⟩
  · rw [mkQueueReader, b]
    simp [flatRem]
  · rw [mkQueueReader, c]
    simp

theorem flatten_drop_le (b : List Byte) (rest : List (List Byte)) (n : Nat)
    (h : n ≤ b.length) : (b :: rest).flatten.drop n = b.drop n ++ rest.flatten := by
  simp only [List.flatten_cons, List.drop_append_eq_append_drop,
    Nat.sub_eq_zero_of_le h, List.drop_zero]

theorem flatten_drop_cons (b : List Byte) (rest : List (List Byte)) (off : Nat)
    (hoff : off < b.length) :
    (b :: rest).flatten.drop off = b[off] :: (b.drop (off + 1) ++ rest.flatten) := by
  rw [flatten_drop_le b rest off (Nat.le_of_lt hoff), List.drop_eq_getElem_cons hoff]
  rfl

theorem takeLoop_spec : ∀ (count : Nat) (bufs : List (List Byte)) (off : Nat),
    (∀ c ∈ bufs, c ≠ []) →
    (∀ c rest, bufs = c :: rest → off < c.length) →
    (bufs = [] → off = 0) →
    off + count ≤ bufs.flatten.length →
    ∃ bufs1 off1,
      takeLoop count bufs off = some ((bufs.flatten.drop off).take count, bufs1, off1) ∧
      (∀ c ∈ bufs1, c ≠ []) ∧
      (∀ c rest, bufs1 = c :: rest → off1 < c.length) ∧
      (bufs1 = [] → off1 = 0) ∧
      bufs1.flatten.drop off1 = bufs.flatten.drop (off + count) ∧
      off1 + bufs.flatten.length = off + count + bufs1.flatten.length := by
  intro count
  induction count with
  | zero =>
    intro bufs off h1 h2 h3 h4
    exact ⟨bufs, off, by simp [takeLoop], h1, h2, h3, by simp, by omega⟩
  | succ k ih =>
    intro bufs off h1 h2 h3 h4
    cases bufs with
    | nil =>
      simp at h4
    | cons b rest =>
      have hoff : off < b.length := h2 b rest rfl
      have hget : b[off]? = some b[off] := List.getElem?_eq_getElem hoff
      have hflen : (b :: rest).flatten.length = b.length + rest.flatten.length := by
        simp [List.length_append]
      rw [hflen] at h4
      have hdropf := flatten_drop_cons b rest off hoff
      by_cases hev : b.length ≤ off + 1
      · have hoffb : off + 1 = b.length := by omega
        have hz : off + 1 - b.length = 0 := by omega
        have h1r : ∀ c ∈ rest, c ≠ [] := fun c hc => h1 c (List.mem_cons_of_mem _ hc)
        have h2r : ∀ c cs, rest = c :: cs → 0 < c.length := by
          intro c cs hcs
          have hm : c ∈ b :: rest := by
            rw [hcs]
            exact List.mem_cons_of_mem _ (List.mem_cons_self _ _)
          exact List.length_pos.mpr (h1 c hm)
        obtain ⟨bufs1, off1, heq, g1, g2, g3, g4, g5⟩ :=
          ih rest 0 h1r h2r (fun _ => rfl) (by omega)
        have hbytes : ((b :: rest).flatten.drop off).take (k + 1)
            = b[off] :: (rest.flatten.drop 0).take k := by
          rw [hdropf, List.drop_eq_nil_of_le hev, List.drop_zero]
          simp
        refine ⟨bufs1, off1, ?_, g1, g2, g3, ?_, ?_⟩
        · simp only [takeLoop, hget, hev, if_true, hz, heq, Option.map_some', hbytes]
        · rw [g4]
          have h7 : off + (k + 1) = b.length + k := by omega
          rw [h7]
          simp only [List.flatten_cons, List.drop_append]
          simp
        · rw [hflen]
          omega
      · have h2n : ∀ c cs, b :: rest = c :: cs → off + 1 < c.length := by
          intro c cs hcs
          injection hcs with hc1 _
          subst hc1
          omega
        obtain ⟨bufs1, off1, heq, g1, g2, g3, g4, g5⟩ :=
          ih (b :: rest) (off + 1) h1 h2n (fun h => nomatch h) (by rw [hflen]; omega)
        have hcons : (b :: rest).flatten.drop off
            = b[off] :: (b :: rest).flatten.drop (off + 1) := by
          rw [hdropf, flatten_drop_le b rest (off + 1) (by omega)]
        have hbytes : ((b :: rest).flatten.drop off).take (k + 1)
            = b[off] :: ((b :: rest).flatten.drop (off + 1)).take k := by
          rw [hcons]
          simp
        refine ⟨bufs1, off1, ?_, g1, g2, g3, ?_, ?_⟩
        · simp only [takeLoop, hget, hev, if_false, heq, Option.map_some', hbytes]
        · rw [g4]
          have h7 : off + (k + 1) = off + 1 + k := by omega
          rw [h7]
        · rw [hflen] at g5 ⊢
          omega

theorem shiftBytes_spec (s : BufferQueueReader) (count : Nat) (h : QWF s)
    (hc1 : 1 ≤ count) (hc2 : count ≤ s.length) :
    ∃ s2, s.shiftBytes count = some ((flatRem s).take count, s2) ∧ QWF s2 ∧
      flatRem s2 = (flatRem s).drop count ∧ s2.length = s.length - count := by
  obtain ⟨h1, h2, h3, h4⟩ := h
  obtain ⟨bufs1, off1, heq, g1, g2, g3, g4, g5⟩ :=
    takeLoop_spec count s.buffers s.offset h1 h2 h3 (by omega)
  refine ⟨⟨bufs1, off1, s.length - count⟩, ?_, ⟨g1, g2, g3, ?_⟩, ?_, rfl⟩
  · simp only [shiftBytes, heq, Option.map_some']
    rw [if_neg (by omega), if_neg (by omega)]
    rfl
  · dsimp only
    omega
  · show bufs1.flatten.drop off1 = _
    rw [g4]
    simp only [flatRem, List.drop_drop]

theorem uintLoop_eq_takeLoop (le : Bool) : ∀ (size : Nat) (bufs : List (List Byte))
    (off v sh : Nat),
    uintLoop le size bufs off v sh =
      (takeLoop size bufs off).map (fun r => (accum le v sh r.1, r.2)) := by
  intro size
  induction size with
  | zero =>
    intro bufs off v sh
    simp [uintLoop, takeLoop, accum]
  | succ k ih =>
    intro bufs off v sh
    cases bufs with
    | nil => simp [uintLoop, takeLoop]
    | cons b rest =>
      cases hget : b[off]? with
      | none => simp [uintLoop, takeLoop, hget]
      | some v0 =>
        by_cases hev : b.length ≤ off + 1
        · simp only [uintLoop, takeLoop, hget, hev, if_true, ih, Option.map_map]
          cases takeLoop k rest (off + 1 - b.length) with
          | none => rfl
          | some r => simp [accum]
        · simp only [uintLoop, takeLoop, hget, hev, if_false, ih, Option.map_map]
          cases takeLoop k (b :: rest) (off + 1) with
          | none => rfl
          | some r => simp [accum]

theorem shiftUInt_spec (s : BufferQueueReader) (size : Nat) (le : Bool) (h : QWF s)
    (hs : size ≤ s.length) :
    ∃ s2, s.shiftUInt size le
        = some (accum le 0 0 ((flatRem s).take size), s2) ∧ QWF s2 ∧
      flatRem s2 = (flatRem s).drop size ∧ s2.length = s.length - size := by
  obtain ⟨h1, h2, h3, h4⟩ := h
  obtain ⟨bufs1, off1, heq, g1, g2, g3, g4, g5⟩ :=
    takeLoop_spec size s.buffers s.offset h1 h2 h3 (by omega)
  refine ⟨⟨bufs1, off1, s.length - size⟩, ?_, ⟨g1, g2, g3, ?_⟩, ?_, rfl⟩
  · simp only [shiftUInt, uintLoop_eq_takeLoop, heq, Option.map_some']
    rw [if_neg (by omega)]
    rfl
  · dsimp only
    omega
  · show bufs1.flatten.drop off1 = _
    rw [g4]
    simp only [flatRem, List.drop_drop]

theorem qreach_wf (s : BufferQueueReader) (h : QReach s) : QWF s := by
  induction h with
  | base => exact ⟨by simp, by simp, fun _ => rfl, by simp⟩
  | pushStep s c _ ih => exact (pushOne_spec s c ih).1
  | skipStep s count _ ih => exact (skip_spec s count ih).1
  | shiftByteStep s r _ hsome ih =>
    by_cases hl : 0 < s.length
    · obtain ⟨v, s2, heq, hwf, _, _⟩ := shiftByte_spec s ih hl
      rw [heq] at hsome
      cases hsome
      exact hwf
    · rw [shiftByte, if_pos (by omega)] at hsome
      cases hsome
  | shiftBytesStep s count r _ hsome ih =>
    by_cases hc : 1 ≤ count ∧ count ≤ s.length
    · obtain ⟨s2, heq, hwf, _, _⟩ := shiftBytes_spec s count ih hc.1 hc.2
      rw [heq] at hsome
      cases hsome
      exact hwf
    · exfalso
      rw [shiftBytes] at hsome
      rcases Nat.lt_or_ge count 1 with hlt | hge
      · rw [if_pos hlt] at hsome
        cases hsome
      · rw [if_neg (by omega), if_pos (by omega)] at hsome
        cases hsome
  | shiftUIntStep s size le r _ hsome ih =>
    by_cases hsz : size ≤ s.length
    · obtain ⟨s2, heq, hwf, _, _⟩ := shiftUInt_spec s size le ih hsz
      rw [heq] at hsome
      cases hsome
      exact hwf
    · rw [shiftUInt, if_pos (by omega)] at hsome
      cases hsome

end BufferQueueReader

namespace BufferReader

theorem shiftByte_specR (s : BufferReader) (h : RWF s) (hl : 0 < s.length) :
    ∃ v s2, s.shiftByte = some (v, s2) ∧ RWF s2 ∧
      flatRemR s = v :: flatRemR s2 ∧ s2.length = s.length - 1 := by
  have hoff : s.offset < s.buffer.length := by
    simp only [RWF] at h
    omega
  have hne : ¬ s.length = 0 := by omega
  refine ⟨s.buffer[s.offset], ⟨s.buffer, s.offset + 1, s.length - 1⟩, ?_, ?_, ?_, rfl⟩
  · simp only [shiftByte, hne, if_false, List.getElem?_eq_getElem hoff, Option.map_some']
  · simp only [RWF] at h ⊢
    omega
  · simp only [flatRemR]
    exact List.drop_eq_getElem_cons hoff

theorem drainFuelR_eq : ∀ (k : Nat) (s : BufferReader), RWF s → s.length = k →
    drainFuelR k s = flatRemR s := by
  intro k
  induction k with
  | zero =>
    intro s h hk
    have : flatRemR s = [] := by
      apply List.eq_nil_of_length_eq_zero
      simp only [flatRemR, List.length_drop]
      simp only [RWF] at h
      omega
    simp [drainFuelR, this]
  | succ n ih =>
    intro s h hk
    obtain ⟨v, s2, hsb, hwf2, hflat, hlen⟩ := shiftByte_specR s h (by omega)
    simp only [drainFuelR, hsb]
    rw [ih s2 hwf2 (by omega), hflat]

end BufferReader

namespace BufferQueueReader

theorem takeLoop_length : ∀ (count : Nat) (bufs : List (List Byte)) (off : Nat)
    (t : List Byte × List (List Byte) × Nat),
    takeLoop count bufs off = some t → t.1.length = count := by
  intro count
  induction count with
  | zero =>
    intro bufs off t heq
    simp only [takeLoop] at heq
    injection heq with h
    subst h
    rfl
  | succ k ih =>
    intro bufs off t heq
    cases bufs with
    | nil => simp [takeLoop] at heq
    | cons b rest =>
      cases hget : b[off]? with
      | none => simp [takeLoop, hget] at heq
      | some v =>
        by_cases hev : b.length ≤ off + 1
        · simp only [takeLoop, hget, hev, if_true] at heq
          cases hnext : takeLoop k rest (off + 1 - b.length) with
          | none => rw [hnext] at heq; cases heq
          | some r =>
            rw [hnext] at heq
            simp only [Option.map_some'] at heq
            injection heq with h
            subst h
            show (v :: r.1).length = k + 1
            simp [ih rest (off + 1 - b.length) r hnext]
        · simp only [takeLoop, hget, hev, if_false] at heq
          cases hnext : takeLoop k (b :: rest) (off + 1) with
          | none => rw [hnext] at heq; cases heq
          | some r =>
            rw [hnext] at heq
            simp only [Option.map_some'] at heq
            injection heq with h
            subst h
            show (v :: r.1).length = k + 1
            simp [ih (b :: rest) (off + 1) r hnext]

theorem uintStep_lt (le : Bool) (v sh m : Nat) (b : Byte) (hv : v < 2 ^ m)
    (hsh : le = true → m = sh) : uintStep le v sh b < 2 ^ (m + 8) := by
  have hb : b.val < 256 := b.isLt
  have hp : 2 ^ (m + 8) = 2 ^ m * 256 := by rw [pow_add]; norm_num
  cases le with
  | false =>
    have hmul : (v + 1) * 256 ≤ 2 ^ m * 256 := Nat.mul_le_mul_right _ (by omega)
    show (v * 256) % 2 ^ 32 + b.val < 2 ^ (m + 8)
    omega
  | true =>
    have hm : m = sh := hsh rfl
    subst hm
    have h1 : (b.val * 2 ^ m) % 2 ^ 32 ≤ b.val * 2 ^ m := Nat.mod_le _ _
    have h2 : b.val * 2 ^ m ≤ 255 * 2 ^ m := Nat.mul_le_mul_right _ (by omega)
    show v + (b.val * 2 ^ m) % 2 ^ 32 < 2 ^ (m + 8)
    omega

theorem accum_lt (le : Bool) : ∀ (bytes : List Byte) (v sh m : Nat),
    v < 2 ^ m → (le = true → m = sh) →
    accum le v sh bytes < 2 ^ (m + 8 * bytes.length) := by
  intro bytes
  induction bytes with
  | nil =>
    intro v sh m hv _
    simpa [accum] using hv
  | cons b bs ih =>
    intro v sh m hv hsh
    have hstep := uintStep_lt le v sh m b hv hsh
    have := ih (uintStep le v sh b) (sh + 8) (m + 8) hstep (fun hle => by rw [hsh hle])
    have harr : m + 8 * (b :: bs).length = m + 8 + 8 * bs.length := by
      simp [List.length_cons]
      omega
    rw [harr]
    exact this

theorem shiftUInt_lt (s : BufferQueueReader) (size : Nat) (le : Bool)
    (r : Nat × BufferQueueReader) (h : s.shiftUInt size le = some r) :
    r.1 < 2 ^ (8 * size) := by
  rw [shiftUInt] at h
  split at h
  · cases h
  · rw [uintLoop_eq_takeLoop] at h
    cases htl : takeLoop size s.buffers s.offset with
    | none => rw [htl] at h; cases h
    | some t =>
      rw [htl] at h
      simp only [Option.map_some'] at h
      have hlen := takeLoop_length size s.buffers s.offset t htl
      have hacc := accum_lt le t.1 0 0 0 (by norm_num) (fun _ => rfl)
      rw [hlen] at hacc
      injection h with h2
      subst h2
      simpa using hacc

theorem ruLoop_lt (le : Bool) : ∀ (size : Nat) (b : List Byte) (off : Nat)
    (rest : List (List Byte)) (v sh m v2 : Nat),
    ruLoop le size b off rest v sh = some v2 → v < 2 ^ m → (le = true → m = sh) →
    v2 < 2 ^ (m + 8 * size) := by
  intro size
  induction size with
  | zero =>
    intro b off rest v sh m v2 heq hv _
    obtain rfl : v = v2 := by simpa [ruLoop] using heq
    simpa using hv
  | succ k ih =>
    intro b off rest v sh m v2 heq hv hsh
    cases hget : b[off]? with
    | none => simp [ruLoop, hget] at heq
    | some v0 =>
      simp only [ruLoop, hget] at heq
      have hstep := uintStep_lt le v sh m v0 hv hsh
      have harr : m + 8 * (k + 1) = m + 8 + 8 * k := by omega
      rw [harr]
      by_cases hev : b.length ≤ off + 1
      · rw [if_pos hev] at heq
        cases rest with
        | nil =>
          by_cases hk : k = 0
          · subst hk
            rw [if_pos rfl] at heq
            injection heq with hval
            rw [← hval]
            simpa using hstep
          · rw [if_neg hk] at heq
            cases heq
        | cons nb nrest =>
          exact ih nb 0 nrest _ (sh + 8) (m + 8) v2 heq hstep (fun hle => by rw [hsh hle])
      · rw [if_neg hev] at heq
        exact ih b (off + 1) rest _ (sh + 8) (m + 8) v2 heq hstep (fun hle => by rw [hsh hle])

theorem readUInt_lt (s : BufferQueueReader) (o size : Nat) (le : Bool) (v : Nat)
    (h : s.readUInt o size le = some v) : v < 2 ^ (8 * size) := by
  rw [readUInt] at h
  split at h
  · cases h
  · cases hloc : locate s.buffers (s.offset + o) with
    | none => rw [hloc] at h; cases h
    | some t =>
      rw [hloc] at h
      obtain ⟨tb, trest, toff⟩ := t
      have := ruLoop_lt le size tb toff trest 0 0 0 v h (by norm_num) (fun _ => rfl)
      simpa using this

theorem and_two_pow_ne_zero_iff (m v : Nat) (h : v < 2 ^ (m + 1)) :
    (v &&& 2 ^ m ≠ 0) ↔ 2 ^ m ≤ v := by
  rw [Nat.and_two_pow]
  cases htb : v.testBit m with
  | false =>
    simp only [Bool.toNat_false, Nat.zero_mul, ne_eq, not_true_eq_false]
    constructor
    · intro hcon
      exact hcon.elim
    · intro hge
      exfalso
      have hpos : 0 < 2 ^ m := Nat.two_pow_pos m
      rw [pow_succ] at h
      have hlt2 : v / 2 ^ m < 2 := Nat.div_lt_of_lt_mul h
      have hge2 : 1 ≤ v / 2 ^ m := (Nat.one_le_div_iff hpos).mpr hge
      have hdiv : v / 2 ^ m = 1 := by omega
      rw [Nat.testBit_to_div_mod, hdiv] at htb
      simp at htb
  | true =>
    simp only [Bool.toNat_true, Nat.one_mul]
    have hpos : 0 < 2 ^ m := Nat.two_pow_pos m
    exact ⟨fun _ => Nat.testBit_implies_ge htb, fun _ => by omega⟩

theorem toInt8_reint (v : Nat) (h : v < 256) :
    toInt8 v = if 128 ≤ v then (v : Int) - 256 else (v : Int) := by
  have h2 : (2 : Nat) ^ (7 + 1) = 256 := by norm_num
  have hiff := and_two_pow_ne_zero_iff 7 v (h2 ▸ h)
  norm_num at hiff
  rw [toInt8]
  by_cases hc : 128 ≤ v
  · rw [if_pos (hiff.mpr hc), if_pos hc]
    ring
  · rw [if_neg (fun hcon => hc (hiff.mp hcon)), if_neg hc]

theorem toInt16_reint (v : Nat) (h : v < 65536) :
    toInt16 v = if 32768 ≤ v then (v : Int) - 65536 else (v : Int) := by
  have h2 : (2 : Nat) ^ (15 + 1) = 65536 := by norm_num
  have hiff := and_two_pow_ne_zero_iff 15 v (h2 ▸ h)
  norm_num at hiff
  rw [toInt16]
  by_cases hc : 32768 ≤ v
  · rw [if_pos (hiff.mpr hc), if_pos hc]
    ring
  · rw [if_neg (fun hcon => hc (hiff.mp hcon)), if_neg hc]

theorem toInt32_reint (v : Nat) (h : v < 4294967296) :
    toInt32 v = if 2147483648 ≤ v then (v : Int) - 4294967296 else (v : Int) := by
  have h2 : (2 : Nat) ^ (31 + 1) = 4294967296 := by norm_num
  have hiff := and_two_pow_ne_zero_iff 31 v (h2 ▸ h)
  norm_num at hiff
  rw [toInt32]
  by_cases hc : 2147483648 ≤ v
  · rw [if_pos (hiff.mpr hc), if_pos hc]
    ring
  · rw [if_neg (fun hcon => hc (hiff.mp hcon)), if_neg hc]

end BufferQueueReader

/-- Claim C10: for the segmented reader, every signed read is the
two's-complement reinterpretation of the corresponding unsigned read, for
the `read*` family at every offset and endianness and for the `shift*`
family (which also leaves both readers in the same state). -/
theorem claim_C10 (s : BufferQueueReader) (o : Nat) (le : Bool) :
    s.readInt8 o = (s.readUInt8 o).map
      (fun v => if 128 ≤ v then (v : Int) - 256 else (v : Int)) ∧
    s.readInt16 o le = (s.readUInt16 o le).map
      (fun v => if 32768 ≤ v then (v : Int) - 65536 else (v : Int)) ∧
    s.readInt32 o le = (s.readUInt32 o le).map
      (fun v => if 2147483648 ≤ v then (v : Int) - 4294967296 else (v : Int)) ∧
    s.shiftInt8 = (s.shiftUInt8).map
      (fun r => (if 128 ≤ r.1 then (r.1 : Int) - 256 else (r.1 : Int), r.2)) ∧
    s.shiftInt16 le = (s.shiftUInt16 le).map
      (fun r => (if 32768 ≤ r.1 then (r.1 : Int) - 65536 else (r.1 : Int), r.2)) ∧
    s.shiftInt32 le = (s.shiftUInt32 le).map
      (fun r => (if 2147483648 ≤ r.1 then (r.1 : Int) - 4294967296 else (r.1 : Int), r.2)) := by
  refine ⟨?_, ?_, ?_, ?_, ?_, ?_⟩
  · cases hb : s.readByte o with
    | none => simp [BufferQueueReader.readInt8, BufferQueueReader.readUInt8, hb]
    | some b =>
      simp [BufferQueueReader.readInt8, BufferQueueReader.readUInt8, hb,
        BufferQueueReader.toInt8_reint b.val b.isLt]
  · cases hv : s.readUInt o 2 le with
    | none => simp [BufferQueueReader.readInt16, BufferQueueReader.readUInt16, hv]
    | some v =>
      have hlt := BufferQueueReader.readUInt_lt s o 2 le v hv
      norm_num at hlt
      simp [BufferQueueReader.readInt16, BufferQueueReader.readUInt16, hv,
        BufferQueueReader.toInt16_reint v hlt]
  · cases hv : s.readUInt o 4 le with
    | none => simp [BufferQueueReader.readInt32, BufferQueueReader.readUInt32, hv]
    | some v =>
      have hlt := BufferQueueReader.readUInt_lt s o 4 le v hv
      norm_num at hlt
      simp [BufferQueueReader.readInt32, BufferQueueReader.readUInt32, hv,
        BufferQueueReader.toInt32_reint v hlt]
  · cases hb : s.shiftByte with
    | none => simp [BufferQueueReader.shiftInt8, BufferQueueReader.shiftUInt8, hb]
    | some r =>
      simp [BufferQueueReader.shiftInt8, BufferQueueReader.shiftUInt8, hb,
        BufferQueueReader.toInt8_reint r.1.val r.1.isLt]
  · cases hr : s.shiftUInt 2 le with
    | none => simp [BufferQueueReader.shiftInt16, BufferQueueReader.shiftUInt16, hr]
    | some r =>
      have hlt := BufferQueueReader.shiftUInt_lt s 2 le r hr
      norm_num at hlt
      simp [BufferQueueReader.shiftInt16, BufferQueueReader.shiftUInt16, hr,
        BufferQueueReader.toInt16_reint r.1 hlt]
  · cases hr : s.shiftUInt 4 le with
    | none => simp [BufferQueueReader.shiftInt32, BufferQueueReader.shiftUInt32, hr]
    | some r =>
      have hlt := BufferQueueReader.shiftUInt_lt s 4 le r hr
      norm_num at hlt
      simp [BufferQueueReader.shiftInt32, BufferQueueReader.shiftUInt32, hr,
        BufferQueueReader.toInt32_reint r.1 hlt]

/-- Claim C3: in every reachable segmented-reader state (any sequence of
push, skip and shift operations from construction), a non-empty chunk list
has `chunks[0].length > offset`, and no zero-length chunk is ever stored. -/
theorem claim_C3 (s : BufferQueueReader) (h : BufferQueueReader.QReach s) :
    (∀ c ∈ s.buffers, 0 < c.length) ∧
    (∀ c rest, s.buffers = c :: rest → s.offset < c.length) := by
  obtain ⟨h1, h2, _, _⟩ := BufferQueueReader.qreach_wf s h
  exact ⟨fun c hc => List.length_pos.mpr (h1 c hc), h2⟩

/-- Witness for C3: push [5, 6] and [7], then skip one byte. -/
theorem claim_C3_witness :
    (∀ c ∈ ((BufferQueueReader.pushOne
        (BufferQueueReader.pushOne ⟨[], 0, 0⟩ [5, 6]) [7]).skip 1).buffers,
      0 < c.length) ∧
    (∀ c rest, ((BufferQueueReader.pushOne
        (BufferQueueReader.pushOne ⟨[], 0, 0⟩ [5, 6]) [7]).skip 1).buffers = c :: rest →
      ((BufferQueueReader.pushOne
        (BufferQueueReader.pushOne ⟨[], 0, 0⟩ [5, 6]) [7]).skip 1).offset < c.length) :=
  claim_C3 _ (BufferQueueReader.QReach.skipStep _ 1
    (BufferQueueReader.QReach.pushStep _ [7]
      (BufferQueueReader.QReach.pushStep _ [5, 6] BufferQueueReader.QReach.base)))

/-- Claim C2: the segmented reader built from chunks [0x02, 0x9A] and
[0x00, 0x01] returns 666 from big-endian `shiftUInt16()` and is left with
length 2; splitting the same bytes so that the two decoded bytes straddle
a chunk boundary ([0x02] then [0x9A, 0x00, 0x01]) decodes the same value
byte-by-byte across the boundary. -/
theorem claim_C2 :
    BufferQueueReader.shiftUInt16
        (BufferQueueReader.mkQueueReader [[0x02, 0x9A], [0x00, 0x01]]) false
      = some (666, ⟨[[0x00, 0x01]], 0, 2⟩) ∧
    BufferQueueReader.shiftUInt16
        (BufferQueueReader.mkQueueReader [[0x02], [0x9A, 0x00, 0x01]]) false
      = some (666, ⟨[[0x9A, 0x00, 0x01]], 1, 2⟩) := by
  constructor <;> rfl

/-- Claim C1: for every flat byte sequence, however it is split into
non-empty chunks handed to the segmented reader, repeated `shiftByte()`
until `length` is 0 yields exactly that flat sequence in order, and the
cursor reader over the unsplit buffer does the same. -/
theorem claim_C1 :
    (∀ chunks : List (List Byte), (∀ c ∈ chunks, c ≠ []) →
      BufferQueueReader.drain (BufferQueueReader.mkQueueReader chunks) = chunks.flatten) ∧
    (∀ buffer : List Byte, BufferReader.drainR (mkBufferReader buffer) = buffer) := by
  constructor
  · intro chunks _
    obtain ⟨hwf, hflat, hlen⟩ := BufferQueueReader.mkQueueReader_spec chunks
    rw [BufferQueueReader.drain, BufferQueueReader.drainFuel_eq _ _ hwf rfl, hflat]
  · intro buffer
    have hwf : RWF (mkBufferReader buffer) := by simp [RWF, mkBufferReader]
    rw [BufferReader.drainR, BufferReader.drainFuelR_eq _ _ hwf rfl]
    simp [flatRemR, mkBufferReader]

/-- Witness for C1 at a concrete split of the sequence 1,2,3 and a concrete
cursor reader. -/
theorem claim_C1_witness :
    BufferQueueReader.drain (BufferQueueReader.mkQueueReader [[1], [2, 3]]) = [1, 2, 3] ∧
    BufferReader.drainR (mkBufferReader [4, 5]) = [4, 5] :=
  ⟨(claim_C1.1 [[1], [2, 3]] (by decide)).trans (by decide), claim_C1.2 [4, 5]⟩

/-- Claim C6 is falsified by the code as written: the cursor reader's scan
loop stops at `i < this.length` instead of `i < this.offset + this.length`,
so after `skip(1)` over the buffer [9, 7] the unread sequence is exactly
[7], yet `indexOf(7)` reports -1. -/
theorem claim_C6_bug :
    BufferReader.indexOf ((mkBufferReader [9, 7]).skip 1) 7 0 = some (-1) ∧
    flatRemR ((mkBufferReader [9, 7]).skip 1) = [7] := by
  constructor
  · rw [show (mkBufferReader [9, 7]).skip 1 = ⟨[9, 7], 1, 1⟩ from by decide]
    rw [BufferReader.indexOf, if_neg (by decide), if_neg (by decide)]
    rw [BufferReader.scan, if_neg (by decide)]
  · decide

/-- Claim C7 as stated is false: `push` called with a valid chunk followed
by a non-Buffer argument throws but has already appended the chunk, so the
reader's state differs from the state before the call. -/
theorem claim_C7_counterexample :
    (BufferQueueReader.push ⟨[], 0, 0⟩ [JsVal.buffer [1], JsVal.nonBuffer]).2 = true ∧
    (BufferQueueReader.push ⟨[], 0, 0⟩ [JsVal.buffer [1], JsVal.nonBuffer]).1
      ≠ (⟨[], 0, 0⟩ : BufferQueueReader) := by
  exact ⟨by decide, by decide⟩

/-- Claim C7, amended: a failing multi-argument `push` appends exactly the
valid chunks preceding the first non-Buffer argument (the error flag is set
precisely when some argument is not a Buffer); the other operations return
their error before any state change, which the embedding renders by
producing no successor state at all. -/
theorem claim_C7_amended (s : BufferQueueReader) (args : List JsVal) :
    BufferQueueReader.push s args =
      ((argChunks (args.takeWhile isBufferArg)).foldl BufferQueueReader.pushOne s,
        args.any (fun a => !isBufferArg a)) := by
  induction args generalizing s with
  | nil => simp [BufferQueueReader.push, argChunks]
  | cons a rest ih =>
    cases a with
    | buffer c =>
      simp [BufferQueueReader.push, argChunks, isBufferArg, List.takeWhile_cons, ih]
    | nonBuffer =>
      simp [BufferQueueReader.push, argChunks, isBufferArg, List.takeWhile_cons]

theorem scan_neg (buffer : List Byte) (elt off0 stop : Nat)
    (hz : ∀ b ∈ buffer.drop off0, b.val ≠ elt) :
    ∀ (k i : Nat), stop - i ≤ k → off0 ≤ i →
    BufferReader.scan buffer elt off0 i stop = -1 := by
  intro k
  induction k with
  | zero =>
    intro i hk hoff
    rw [BufferReader.scan, if_neg (by omega)]
  | succ n ih =>
    intro i hk hoff
    by_cases hi : i < stop
    · rw [BufferReader.scan, if_pos hi]
      cases hg : buffer[i]? with
      | none => exact ih (i + 1) (by omega) (by omega)
      | some v =>
        have hmem : v ∈ buffer.drop off0 := by
          apply List.getElem?_mem (n := i - off0)
          rw [List.getElem?_drop]
          rw [show off0 + (i - off0) = i by omega]
          exact hg
        dsimp only
        rw [if_neg (hz v hmem)]
        exact ih (i + 1) (by omega) (by omega)
    · rw [BufferReader.scan, if_neg hi]

theorem scanQ_neg : ∀ (bufs : List (List Byte)) (off elt total : Nat),
    (∀ c rest, bufs = c :: rest → off ≤ c.length) →
    (∀ b ∈ bufs.flatten.drop off, b.val ≠ elt) →
    BufferQueueReader.scanQ bufs off elt total = -1 := by
  intro bufs
  induction bufs with
  | nil =>
    intro off elt total _ _
    rw [BufferQueueReader.scanQ]
  | cons b rest ih =>
    intro off elt total hhead hz
    have hle : off ≤ b.length := hhead b rest rfl
    have atEnd : ∀ (off2 total2 : Nat), off2 = b.length →
        (∀ x ∈ (b :: rest).flatten.drop off2, x.val ≠ elt) →
        BufferQueueReader.scanQ (b :: rest) off2 elt total2 = -1 := by
      intro off2 total2 hoffb hz2
      have hg : b[off2]? = none := List.getElem?_eq_none (by omega)
      have hdrop : (b :: rest).flatten.drop off2 = rest.flatten := by
        rw [BufferQueueReader.flatten_drop_le b rest off2 (by omega),
          List.drop_eq_nil_of_le (by omega)]
        simp
      rw [BufferQueueReader.scanQ]
      rw [hg]
      dsimp only
      rw [if_pos (by omega)]
      apply ih 0 elt (total2 + 1) (fun c cs _ => Nat.zero_le _)
      intro x hx
      apply hz2
      rw [hdrop]
      simpa using hx
    have inner : ∀ (k off2 total2 : Nat), b.length - off2 ≤ k → off2 ≤ b.length →
        (∀ x ∈ (b :: rest).flatten.drop off2, x.val ≠ elt) →
        BufferQueueReader.scanQ (b :: rest) off2 elt total2 = -1 := by
      intro k
      induction k with
      | zero =>
        intro off2 total2 hk hle2 hz2
        exact atEnd off2 total2 (by omega) hz2
      | succ n ihk =>
        intro off2 total2 hk hle2 hz2
        by_cases hoffb : off2 = b.length
        · exact atEnd off2 total2 hoffb hz2
        · have hoff : off2 < b.length := by omega
          have hg : b[off2]? = some b[off2] := List.getElem?_eq_getElem hoff
          have hdc := BufferQueueReader.flatten_drop_cons b rest off2 hoff
          have hv : b[off2].val ≠ elt := by
            apply hz2
            rw [hdc]
            exact List.mem_cons_self _ _
          rw [BufferQueueReader.scanQ]
          rw [hg]
          dsimp only
          rw [if_neg hv]
          by_cases hev : b.length ≤ off2 + 1
          · rw [if_pos hev]
            apply ih 0 elt (total2 + 1) (fun c cs _ => Nat.zero_le _)
            intro x hx
            apply hz2
            rw [hdc]
            apply List.mem_cons_of_mem
            apply List.mem_append_right
            simpa using hx
          · rw [if_neg hev]
            apply ihk (off2 + 1) (total2 + 1) (by omega) (by omega)
            intro x hx
            apply hz2
            rw [hdc]
            apply List.mem_cons_of_mem
            rw [BufferQueueReader.flatten_drop_le b rest (off2 + 1) (by omega)] at hx
            exact hx
    exact inner (b.length - off) off total (by omega) hle hz

/-- Claim C8: on any reader — cursor or segmented (the latter in any
well-formed state) — whose unread bytes contain no zero byte,
`shiftZeroString()` returns the empty string and consumes nothing: the
state after the call is the state before it. -/
theorem claim_C8 :
    (∀ s : BufferReader, (∀ b ∈ flatRemR s, b.val ≠ 0) →
      BufferReader.shiftZeroString s = some ([], s)) ∧
    (∀ s : BufferQueueReader, QWF s → (∀ b ∈ flatRem s, b.val ≠ 0) →
      BufferQueueReader.shiftZeroString s = some ([], s)) := by
  constructor
  · intro s hz
    have hscan : BufferReader.scan s.buffer 0 s.offset (s.offset + 0) s.length = -1 :=
      scan_neg s.buffer 0 s.offset s.length hz s.length (s.offset + 0)
        (by omega) (by omega)
    have hidx : s.indexOf 0 0 = some (-1) := by
      rw [BufferReader.indexOf, if_neg (by omega), if_neg (by omega), hscan]
    rw [BufferReader.shiftZeroString, hidx]
    dsimp only
    rw [if_pos rfl]
  · intro s hwf hz
    obtain ⟨h1, h2, h3, h4⟩ := hwf
    obtain ⟨e1, e2, e3, e4, e5⟩ := BufferQueueReader.evict_spec s.buffers (s.offset + 0) h1
    have hscan : BufferQueueReader.scanQ (BufferQueueReader.evict s.buffers (s.offset + 0)).1
        (BufferQueueReader.evict s.buffers (s.offset + 0)).2 0 0 = -1 := by
      apply scanQ_neg _ _ 0 0 (fun c cs hcs => Nat.le_of_lt (e2 c cs hcs))
      intro b hb
      apply hz
      rw [e4] at hb
      simpa [flatRem] using hb
    have hidx : s.indexOf 0 0 = some (-1) := by
      rw [BufferQueueReader.indexOf, if_neg (by omega), if_neg (by omega)]
      show some (BufferQueueReader.scanQ _ _ 0 0) = some (-1)
      rw [hscan]
    rw [BufferQueueReader.shiftZeroString, hidx]
    dsimp only
    rw [if_pos rfl]

set_option maxRecDepth 4000 in
/-- Witness for C8: a cursor reader over [1, 2] and a segmented reader over
chunks [1] and [2]; neither unread sequence contains a zero byte. -/
theorem claim_C8_witness :
    BufferReader.shiftZeroString (mkBufferReader [1, 2])
      = some ([], mkBufferReader [1, 2]) ∧
    BufferQueueReader.shiftZeroString (BufferQueueReader.mkQueueReader [[1], [2]])
      = some ([], BufferQueueReader.mkQueueReader [[1], [2]]) :=
  ⟨claim_C8.1 (mkBufferReader [1, 2]) (by decide),
   claim_C8.2 (BufferQueueReader.mkQueueReader [[1], [2]])
     (BufferQueueReader.mkQueueReader_spec [[1], [2]]).1 (by decide)⟩

/-- Claim C4: for every T in [0, 65535] and both byte orders, building a
buffer with `pushUInt16(T, littleEndian)` + `toBuffer()` and feeding it to
`shiftUInt16(littleEndian)` returns exactly T, on the cursor reader and on
the segmented reader. -/
theorem claim_C4 (T : Nat) (le : Bool) (h : T ≤ 65535) :
    ∃ b1, BufferBuilder.pushUInt16 emptyBuilder T le = some b1 ∧
      (BufferReader.shiftUInt16 (mkBufferReader (BufferBuilder.toBuffer b1)) le).map
          Prod.fst = some T ∧
      (BufferQueueReader.shiftUInt16
          (BufferQueueReader.mkQueueReader [BufferBuilder.toBuffer b1]) le).map
          Prod.fst = some T := by
  cases le with
  | false =>
    refine ⟨⟨2, [⟨2, BufferBuilder.bufWriteUInt16 false T⟩]⟩, ?_, ?_, ?_⟩
    · rw [BufferBuilder.pushUInt16, if_neg (by omega)]
      rfl
    · rw [show BufferBuilder.toBuffer ⟨2, [⟨2, BufferBuilder.bufWriteUInt16 false T⟩]⟩
          = [natToByte (T / 256), natToByte T] from rfl]
      simp only [mkBufferReader, BufferReader.shiftUInt16, BufferReader.readUInt16,
        BufferReader.bufReadUInt16, natToByte, Nat.add_zero, Nat.zero_add,
        List.getElem?_cons_zero, List.getElem?_cons_succ, Option.map_some']
      rw [if_neg (by decide)]
      simp only [Option.some.injEq]
      omega
    · rw [show BufferBuilder.toBuffer ⟨2, [⟨2, BufferBuilder.bufWriteUInt16 false T⟩]⟩
          = [natToByte (T / 256), natToByte T] from rfl]
      simp only [BufferQueueReader.mkQueueReader, BufferQueueReader.shiftUInt16,
        BufferQueueReader.shiftUInt, BufferQueueReader.uintLoop,
        BufferQueueReader.uintStep, BufferQueueReader.pushOne, natToByte,
        List.foldl_cons, List.foldl_nil, List.getElem?_cons_zero,
        List.getElem?_cons_succ, Option.map_some']
      norm_num
      omega
  | true =>
    refine ⟨⟨2, [⟨2, BufferBuilder.bufWriteUInt16 true T⟩]⟩, ?_, ?_, ?_⟩
    · rw [BufferBuilder.pushUInt16, if_neg (by omega)]
      rfl
    · rw [show BufferBuilder.toBuffer ⟨2, [⟨2, BufferBuilder.bufWriteUInt16 true T⟩]⟩
          = [natToByte T, natToByte (T / 256)] from rfl]
      simp only [mkBufferReader, BufferReader.shiftUInt16, BufferReader.readUInt16,
        BufferReader.bufReadUInt16, natToByte, Nat.add_zero, Nat.zero_add,
        List.getElem?_cons_zero, List.getElem?_cons_succ, Option.map_some']
      rw [if_pos trivial]
      simp only [Option.some.injEq]
      omega
    · rw [show BufferBuilder.toBuffer ⟨2, [⟨2, BufferBuilder.bufWriteUInt16 true T⟩]⟩
          = [natToByte T, natToByte (T / 256)] from rfl]
      simp only [BufferQueueReader.mkQueueReader, BufferQueueReader.shiftUInt16,
        BufferQueueReader.shiftUInt, BufferQueueReader.uintLoop,
        BufferQueueReader.uintStep, BufferQueueReader.pushOne, natToByte,
        List.foldl_cons, List.foldl_nil, List.getElem?_cons_zero,
        List.getElem?_cons_succ, Option.map_some']
      norm_num
      omega

theorem writeList_length : ∀ (l : List Byte) (buf : List Byte) (off : Nat),
    (writeList buf off l).length = buf.length := by
  intro l
  induction l with
  | nil => intro buf off; rfl
  | cons v vs ih =>
    intro buf off
    rw [writeList, ih]
    simp

namespace BufferBuilder

theorem pushBitsGo_length : ∀ (bits : List Bool) (bi bv : Nat)
    (buf : List Byte) (off : Nat),
    (pushBitsGo bits bi bv buf off).length = buf.length := by
  intro bits
  induction bits with
  | nil => intro bi bv buf off; simp [pushBitsGo]
  | cons bit rest ih =>
    intro bi bv buf off
    rw [pushBitsGo]
    split
    · rw [ih]
      simp
    · rw [ih]

theorem bufWriteUInt16_length (le : Bool) (v : Nat) (buf : List Byte) (off : Nat) :
    (bufWriteUInt16 le v buf off).length = buf.length := by
  rw [bufWriteUInt16]
  split <;> rw [writeList_length]

theorem bufWriteUInt32_length (le : Bool) (v : Nat) (buf : List Byte) (off : Nat) :
    (bufWriteUInt32 le v buf off).length = buf.length := by
  rw [bufWriteUInt32]
  split <;> rw [writeList_length]

theorem data_append_runs (d : List WriteOp) (op : WriteOp)
    (hd : ∀ o ∈ d, ∀ (buf : List Byte) (off : Nat), (o.run buf off).length = buf.length)
    (hop : ∀ (buf : List Byte) (off : Nat), (op.run buf off).length = buf.length) :
    ∀ o ∈ d ++ [op], ∀ (buf : List Byte) (off : Nat),
      (o.run buf off).length = buf.length := by
  intro o ho
  rcases List.mem_append.mp ho with hm | hm
  · exact hd o hm
  · simp at hm
    subst hm
    exact hop

theorem breach_runs (b : BufferBuilder) (h : BReach b) :
    ∀ op ∈ b.data, ∀ (buf : List Byte) (off : Nat),
      (op.run buf off).length = buf.length := by
  induction h with
  | base =>
    intro op hop
    simp [emptyBuilder] at hop
  | pushByteStep b v b2 _ heq ih =>
    rw [pushByte] at heq
    split at heq
    · cases heq
    · injection heq with h2
      subst h2
      exact data_append_runs b.data _ ih (fun buf off => by simp)
  | pushBytesStep b arr _ ih =>
    rw [pushBytes]
    split
    · exact ih
    · exact data_append_runs b.data _ ih (fun buf off => writeList_length _ _ _)
  | pushBufferStep b c _ ih =>
    rw [pushBuffer]
    split
    · exact ih
    · exact data_append_runs b.data _ ih (fun buf off => writeList_length _ _ _)
  | pushBitsStep b bits _ ih =>
    rw [pushBits]
    split
    · exact ih
    · exact data_append_runs b.data _ ih (fun buf off => pushBitsGo_length _ _ _ _ _)
  | pushUInt8Step b v b2 _ heq ih =>
    rw [pushUInt8] at heq
    split at heq
    · cases heq
    · injection heq with h2
      subst h2
      exact data_append_runs b.data _ ih (fun buf off => by simp)
  | pushUInt16Step b v le b2 _ heq ih =>
    rw [pushUInt16] at heq
    split at heq
    · cases heq
    · injection heq with h2
      subst h2
      exact data_append_runs b.data _ ih (fun buf off => bufWriteUInt16_length _ _ _ _)
  | pushUInt32Step b v le b2 _ heq ih =>
    rw [pushUInt32] at heq
    split at heq
    · cases heq
    · injection heq with h2
      subst h2
      exact data_append_runs b.data _ ih (fun buf off => bufWriteUInt32_length _ _ _ _)
  | pushInt8Step b v b2 _ heq ih =>
    rw [pushInt8] at heq
    split at heq
    · cases heq
    · injection heq with h2
      subst h2
      exact data_append_runs b.data _ ih (fun buf off => by simp)
  | pushInt16Step b v le b2 _ heq ih =>
    rw [pushInt16] at heq
    split at heq
    · cases heq
    · injection heq with h2
      subst h2
      exact data_append_runs b.data _ ih (fun buf off => bufWriteUInt16_length _ _ _ _)
  | pushInt32Step b v le b2 _ heq ih =>
    rw [pushInt32] at heq
    split at heq
    · cases heq
    · injection heq with h2
      subst h2
      exact data_append_runs b.data _ ih (fun buf off => bufWriteUInt32_length _ _ _ _)

theorem interpOps_length : ∀ (ops : List WriteOp) (buf : List Byte) (off : Nat),
    (∀ o ∈ ops, ∀ (b2 : List Byte) (o2 : Nat), (o.run b2 o2).length = b2.length) →
    (interpOps ops buf off).length = buf.length := by
  intro ops
  induction ops with
  | nil => intro buf off _; rfl
  | cons op rest ih =>
    intro buf off hall
    rw [interpOps, ih _ _ (fun o ho => hall o (List.mem_cons_of_mem _ ho))]
    exact hall op (List.mem_cons_self _ _) buf off

end BufferBuilder

/-- Claim C9: for every reachable builder state, `toBuffer()` leaves the
builder unchanged, returns a buffer of exactly `length` bytes, and a second
call with no intervening push returns a byte-identical buffer (also of
exactly `length` bytes). -/
theorem claim_C9 (b : BufferBuilder) (h : BufferBuilder.BReach b) :
    (BufferBuilder.toBufferS b).2 = b ∧
    (BufferBuilder.toBufferS ((BufferBuilder.toBufferS b).2)).1
      = (BufferBuilder.toBufferS b).1 ∧
    ((BufferBuilder.toBufferS b).1).length = b.length ∧
    ((BufferBuilder.toBufferS ((BufferBuilder.toBufferS b).2)).1).length = b.length := by
  have hlen : ((BufferBuilder.toBufferS b).1).length = b.length := by
    rw [BufferBuilder.toBufferS]
    dsimp only
    rw [BufferBuilder.interpOps_length b.data _ 0 (BufferBuilder.breach_runs b h)]
    simp
  exact ⟨rfl, rfl, hlen, hlen⟩

/-- Witness for C9 at the builder holding one pushBits([true]) operation. -/
theorem claim_C9_witness :
    (BufferBuilder.toBufferS (BufferBuilder.pushBits emptyBuilder [true])).2
      = BufferBuilder.pushBits emptyBuilder [true] ∧
    (BufferBuilder.toBufferS
        ((BufferBuilder.toBufferS (BufferBuilder.pushBits emptyBuilder [true])).2)).1
      = (BufferBuilder.toBufferS (BufferBuilder.pushBits emptyBuilder [true])).1 ∧
    ((BufferBuilder.toBufferS (BufferBuilder.pushBits emptyBuilder [true])).1).length
      = (BufferBuilder.pushBits emptyBuilder [true]).length ∧
    ((BufferBuilder.toBufferS
        ((BufferBuilder.toBufferS (BufferBuilder.pushBits emptyBuilder [true])).2)).1).length
      = (BufferBuilder.pushBits emptyBuilder [true]).length :=
  claim_C9 _ (BufferBuilder.BReach.pushBitsStep _ [true] BufferBuilder.BReach.base)

theorem bitsToByte_lt : ∀ (l : List Bool), bitsToByte l < 2 ^ l.length := by
  intro l
  induction l with
  | nil => simp [bitsToByte]
  | cons b t ih =>
    rw [bitsToByte]
    have hp : 2 ^ (b :: t).length = 2 ^ t.length * 2 := by
      rw [List.length_cons, pow_succ]
    rw [hp]
    have hc : (if b then 1 else 0) ≤ 1 := by cases b <;> simp
    omega

theorem testBit_bitsToByte : ∀ (l : List Bool) (i : Nat), i < l.length →
    (bitsToByte l).testBit i = l.getD i false := by
  intro l
  induction l with
  | nil =>
    intro i h
    simp at h
  | cons b t ih =>
    intro i h
    cases i with
    | zero =>
      rw [bitsToByte, Nat.testBit_zero]
      cases b <;> simp [Nat.add_mul_mod_self_left]
    | succ j =>
      rw [bitsToByte, Nat.testBit_add_one]
      have hdiv : ((if b then 1 else 0) + 2 * bitsToByte t) / 2 = bitsToByte t := by
        cases b <;> (simp; try omega)
      rw [hdiv, ih j (by simpa using h)]
      rfl

theorem bitsToByte_append (l : List Bool) (bit : Bool) :
    bitsToByte (l ++ [bit]) = bitsToByte l + 2 ^ l.length * (if bit then 1 else 0) := by
  induction l with
  | nil => simp [bitsToByte]
  | cons a t ih =>
    simp only [List.cons_append, bitsToByte, List.append_eq, ih, List.length_cons,
      pow_succ]
    ring

theorem lor_two_pow (bv bi : Nat) (h : bv < 2 ^ bi) : bv ||| 2 ^ bi = bv + 2 ^ bi := by
  apply Nat.eq_of_testBit_eq
  intro j
  rw [Nat.testBit_or]
  rw [show bv + 2 ^ bi = 2 ^ bi * 1 + bv by ring]
  rw [Nat.testBit_mul_pow_two_add 1 h j]
  rcases Nat.lt_trichotomy j bi with hj | hj | hj
  · rw [if_pos hj, Nat.testBit_two_pow]
    simp [Nat.ne_of_gt hj]
  · subst hj
    rw [if_neg (by omega), Nat.testBit_two_pow]
    simp [Nat.testBit_lt_two_pow h]
  · rw [if_neg (by omega), Nat.testBit_two_pow]
    have h1 : bv.testBit j = false :=
      Nat.testBit_lt_two_pow (lt_of_lt_of_le h (Nat.pow_le_pow_right (by omega) (by omega)))
    have h2 : Nat.testBit 1 (j - bi) = false := by
      apply Nat.testBit_lt_two_pow
      have hge : 1 ≤ j - bi := by omega
      calc (1 : Nat) < 2 := by omega
      _ = 2 ^ 1 := by norm_num
      _ ≤ 2 ^ (j - bi) := Nat.pow_le_pow_right (by omega) hge
    simp [h1, h2, Nat.ne_of_lt hj]

theorem and_two_pow_bool (x i : Nat) : ((x &&& 2 ^ i) != 0) = x.testBit i := by
  rw [Nat.and_two_pow]
  cases htb : x.testBit i
  · simp
  · have := Nat.two_pow_pos i
    simp


theorem byteBits_take (l : List Bool) (h8 : l.length ≤ 8) :
    (byteBits (natToByte (bitsToByte l))).take l.length = l := by
  have hval : (natToByte (bitsToByte l)).val = bitsToByte l := by
    have hlt := bitsToByte_lt l
    have h2 : 2 ^ l.length ≤ 256 := by
      calc 2 ^ l.length ≤ 2 ^ 8 := Nat.pow_le_pow_right (by omega) h8
      _ = 256 := by norm_num
    simp only [natToByte]
    omega
  rw [byteBits, hval, ← List.map_take, List.take_range, Nat.min_eq_left h8]
  apply List.ext_getElem
  · simp
  · intro i h1 h2
    simp only [List.getElem_map, List.getElem_range]
    rw [and_two_pow_bool, testBit_bitsToByte l i (by simpa using h2)]
    apply List.getD_eq_getElem

theorem byteBits_length (b : Byte) : (byteBits b).length = 8 := by
  simp [byteBits]

theorem pack_toBits : ∀ (rest seen : List Bool), 1 ≤ seen.length → seen.length ≤ 8 →
    toBits ((packLoop rest seen.length (bitsToByte seen)).map natToByte)
      (seen.length + rest.length) = seen ++ rest := by
  intro rest
  induction rest with
  | nil =>
    intro seen h1 h8
    rw [show packLoop [] seen.length (bitsToByte seen) = [bitsToByte seen] from rfl]
    simp only [List.map_cons, List.map_nil, toBits, List.append_nil, List.length_nil,
      Nat.add_zero]
    exact byteBits_take seen h8
  | cons bit t ih =>
    intro seen h1 h8
    by_cases hfl : seen.length = 8
    · rw [show packLoop (bit :: t) seen.length (bitsToByte seen)
          = bitsToByte seen :: packLoop t 1 (if bit then 1 else 0) from by
        rw [hfl, packLoop, if_pos ⟨by omega, by omega⟩]]
      have hbit : (if bit then 1 else 0) = bitsToByte [bit] := by cases bit <;> rfl
      rw [hbit]
      simp only [List.map_cons, toBits]
      have hfull : byteBits (natToByte (bitsToByte seen)) = seen := by
        have htake := byteBits_take seen h8
        rwa [hfl, List.take_of_length_le (le_of_eq (byteBits_length _))] at htake
      rw [hfull]
      rw [List.take_of_length_le (by omega)]
      rw [show seen.length + (bit :: t).length - 8 = 1 + t.length from by
        simp only [List.length_cons]; omega]
      rw [show (1 : Nat) = [bit].length from rfl]
      rw [ih [bit] (by simp) (by simp)]
      simp
    · have hlt : seen.length < 8 := by omega
      rw [show packLoop (bit :: t) seen.length (bitsToByte seen)
          = packLoop t (seen.length + 1)
              (if bit then bitsToByte seen ||| 2 ^ seen.length else bitsToByte seen) from by
        rw [packLoop, if_neg (by rintro ⟨hne, hmod⟩; omega)]]
      have hval : (if bit then bitsToByte seen ||| 2 ^ seen.length else bitsToByte seen)
          = bitsToByte (seen ++ [bit]) := by
        rw [bitsToByte_append]
        cases bit
        · simp
        · simp only [if_true]
          rw [lor_two_pow _ _ (bitsToByte_lt seen)]
          ring
      rw [hval]
      rw [show seen.length + (bit :: t).length = (seen ++ [bit]).length + t.length from by
        simp
        omega]
      rw [show seen.length + 1 = (seen ++ [bit]).length from by simp]
      rw [ih (seen ++ [bit]) (by simp) (by simp; omega)]
      simp

theorem packLoop_length : ∀ (rest : List Bool) (bi bv : Nat), 1 ≤ bi → bi ≤ 8 →
    (packLoop rest bi bv).length = (bi + rest.length + 7) / 8 := by
  intro rest
  induction rest with
  | nil =>
    intro bi bv h1 h8
    rw [packLoop]
    simp
    omega
  | cons bit t ih =>
    intro bi bv h1 h8
    by_cases hfl : bi = 8
    · subst hfl
      rw [packLoop, if_pos ⟨by omega, by omega⟩]
      rw [List.length_cons, ih 1 _ (by omega) (by omega)]
      simp
      omega
    · rw [packLoop, if_neg (by rintro ⟨hne, hmod⟩; omega)]
      rw [ih (bi + 1) _ (by omega) (by omega)]
      simp
      omega

theorem pushBitsGo_eq : ∀ (bits : List Bool) (bi bv : Nat) (buf : List Byte) (off : Nat),
    BufferBuilder.pushBitsGo bits bi bv buf off
      = writeList buf off ((packLoop bits bi bv).map natToByte) := by
  intro bits
  induction bits with
  | nil => intro bi bv buf off; rfl
  | cons bit rest ih =>
    intro bi bv buf off
    by_cases hc : bi ≠ 0 ∧ bi % 8 = 0
    · rw [BufferBuilder.pushBitsGo, packLoop, if_pos hc, if_pos hc, List.map_cons,
        writeList]
      exact ih 1 _ _ _
    · rw [BufferBuilder.pushBitsGo, packLoop, if_neg hc, if_neg hc]
      exact ih (bi + 1) _ buf off

theorem set_append_len : ∀ (pre : List Byte) (a : Byte) (t : List Byte) (x : Byte),
    (pre ++ a :: t).set pre.length x = pre ++ x :: t := by
  intro pre
  induction pre with
  | nil => intro a t x; rfl
  | cons p ps ih =>
    intro a t x
    simp only [List.cons_append, List.length_cons, List.set_cons_succ]
    rw [ih]

theorem writeList_replicate : ∀ (l : List Byte) (pre : List Byte),
    writeList (pre ++ List.replicate l.length (natToByte 0)) pre.length l = pre ++ l := by
  intro l
  induction l with
  | nil => intro pre; simp [writeList]
  | cons x xs ih =>
    intro pre
    rw [show List.replicate (x :: xs).length (natToByte 0)
        = natToByte 0 :: List.replicate xs.length (natToByte 0) from rfl]
    rw [writeList, set_append_len pre (natToByte 0) _ x]
    rw [show pre ++ x :: List.replicate xs.length (natToByte 0)
        = (pre ++ [x]) ++ List.replicate xs.length (natToByte 0) from by simp]
    rw [show pre.length + 1 = (pre ++ [x]).length from by simp]
    rw [ih (pre ++ [x])]
    simp

theorem readLoop_take : ∀ (count : Nat) (l : List Byte) (off : Nat),
    off + count ≤ l.length →
    BufferReader.readLoop l off count = some ((l.drop off).take count) := by
  intro count
  induction count with
  | zero =>
    intro l off h
    simp [BufferReader.readLoop]
  | succ k ih =>
    intro l off h
    have hoff : off < l.length := by omega
    rw [BufferReader.readLoop, List.getElem?_eq_getElem hoff]
    dsimp only
    rw [ih l (off + 1) (by omega)]
    simp only [Option.map_some']
    congr 1
    rw [List.drop_eq_getElem_cons hoff, List.take_succ_cons]

/-- Claim C5: for every non-empty boolean list (any length, multiples of 8
or not), building with `pushBits(bits)`, materializing, and reading back
with `readBits(0, bits.length)` on a reader over the result returns
exactly the original sequence, with no padding bits in it. -/
theorem claim_C5 (bits : List Bool) (h : bits ≠ []) :
    BufferReader.readBits
      (mkBufferReader (BufferBuilder.toBuffer (BufferBuilder.pushBits emptyBuilder bits)))
      0 bits.length = some bits := by
  obtain ⟨b0, rest, rfl⟩ : ∃ b0 rest, bits = b0 :: rest := by
    cases bits with
    | nil => exact absurd rfl h
    | cons b0 rest => exact ⟨b0, rest, rfl⟩
  have hne : ¬ (b0 :: rest).length = 0 := by simp
  have hstep : packLoop (b0 :: rest) 0 0 = packLoop rest 1 (bitsToByte [b0]) := by
    rw [packLoop, if_neg (by rintro ⟨hne2, _⟩; omega)]
    cases b0 <;> rfl
  have hplen : (packLoop (b0 :: rest) 0 0).length = ((b0 :: rest).length + 7) / 8 := by
    rw [hstep, packLoop_length rest 1 _ (by omega) (by omega)]
    simp only [List.length_cons]
    omega
  have hbuilt : BufferBuilder.pushBits emptyBuilder (b0 :: rest)
      = ⟨((b0 :: rest).length + 7) / 8,
          [⟨((b0 :: rest).length + 7) / 8,
            fun buf off => BufferBuilder.pushBitsGo (b0 :: rest) 0 0 buf off⟩]⟩ := by
    rw [BufferBuilder.pushBits]
    rw [if_neg hne]
    simp [emptyBuilder]
  have hbuf : BufferBuilder.toBuffer (BufferBuilder.pushBits emptyBuilder (b0 :: rest))
      = (packLoop (b0 :: rest) 0 0).map natToByte := by
    rw [hbuilt, BufferBuilder.toBuffer, BufferBuilder.toBufferS]
    dsimp only [BufferBuilder.interpOps]
    rw [pushBitsGo_eq]
    have hwl := writeList_replicate ((packLoop (b0 :: rest) 0 0).map natToByte) []
    simp only [List.nil_append, List.length_nil] at hwl
    rw [List.length_map, hplen] at hwl
    exact hwl
  rw [hbuf]
  have hlen : ((packLoop (b0 :: rest) 0 0).map natToByte).length
      = ((b0 :: rest).length + 7) / 8 := by
    rw [List.length_map, hplen]
  rw [BufferReader.readBits, BufferReader.readBytes]
  rw [if_neg (by omega)]
  rw [if_neg (by
    rw [show (mkBufferReader ((packLoop (b0 :: rest) 0 0).map natToByte)).length
        = ((packLoop (b0 :: rest) 0 0).map natToByte).length from rfl, hlen]
    omega)]
  rw [show (mkBufferReader ((packLoop (b0 :: rest) 0 0).map natToByte)).offset + 0
      = 0 from rfl]
  rw [show (mkBufferReader ((packLoop (b0 :: rest) 0 0).map natToByte)).buffer
      = (packLoop (b0 :: rest) 0 0).map natToByte from rfl]
  rw [readLoop_take (((b0 :: rest).length + 7) / 8)
      ((packLoop (b0 :: rest) 0 0).map natToByte) 0 (by rw [hlen]; omega)]
  rw [List.drop_zero, List.take_of_length_le (by rw [hlen])]
  simp only [Option.map_some', Option.some.injEq]
  rw [hstep]
  rw [show (b0 :: rest).length = [b0].length + rest.length from by
    simp only [List.length_cons, List.length_nil]
    omega]
  rw [show (1 : Nat) = [b0].length from rfl]
  rw [pack_toBits rest [b0] (by simp) (by simp)]
  simp

/-- Witness for C5 at a 3-bit sequence. -/
theorem claim_C5_witness :
    BufferReader.readBits
      (mkBufferReader (BufferBuilder.toBuffer
        (BufferBuilder.pushBits emptyBuilder [true, false, true])))
      0 [true, false, true].length = some [true, false, true] :=
  claim_C5 [true, false, true] (by decide)

/-- Witness for C4 at T = 666 with big-endian byte order. -/
theorem claim_C4_witness :
    ∃ b1, BufferBuilder.pushUInt16 emptyBuilder 666 false = some b1 ∧
      (BufferReader.shiftUInt16 (mkBufferReader (BufferBuilder.toBuffer b1)) false).map
          Prod.fst = some 666 ∧
      (BufferQueueReader.shiftUInt16
          (BufferQueueReader.mkQueueReader [BufferBuilder.toBuffer b1]) false).map
          Prod.fst = some 666 :=
  claim_C4 666 false (by decide)

end H5
